import Mathlib

/-!
Verification of asciiscript: the script parser and the command execution model.

A shallow embedding of `main.go`.  Go strings are modelled as lists of
characters (`Str`); the script file is taken to be valid UTF-8 text, where
splitting on the ASCII characters `\n` and `:` and slicing off an ASCII prefix
act on characters exactly as they act on bytes.  `time.Duration` is a signed
64-bit count of nanoseconds, modelled as an `Int` with explicit wrap-around.
-/

namespace Asciiscript

/-- Go `string`, as a list of characters. -/
abbrev Str := List Char

deriving instance DecidableEq for Except

/-! ## Library functions used by the program -/

/-- Go `strings.Split(s, sep)` for a one-character separator: the pieces of `s`
between occurrences of `sep`; always at least one piece. -/
def Split (sep : Char) : Str → List Str
  | [] => [[]]
  | c :: cs =>
    if c = sep then [] :: Split sep cs
    else
      match Split sep cs with
      | [] => [[c]]
      | piece :: pieces => (c :: piece) :: pieces

/-- Go `strings.HasPrefix(s, prefix)`. -/
def HasPrefix : Str → Str → Bool
  | _, [] => true
  | [], _ :: _ => false
  | c :: cs, p :: ps => c == p && HasPrefix cs ps

/-- The two ways `strconv.ParseUint` / `strconv.ParseInt` fail. -/
inductive NumError where
  | syntaxError
  | rangeError
  deriving DecidableEq, Repr

/-- Largest `uint64`. -/
def maxUint64 : Nat := 2 ^ 64 - 1

/-- The digit loop of Go `strconv.ParseUint(s, 10, 64)`: `n` is the value read
so far.  A character that is not a decimal digit is a syntax error (in base 10 a
letter is a digit value of at least 10, so it is rejected as well); the two
range checks are those of the library. -/
def parseUintLoop (n : Nat) : Str → Except NumError Nat
  | [] => .ok n
  | c :: cs =>
    if '0' ≤ c ∧ c ≤ '9' then
      let d := c.toNat - '0'.toNat
      if n ≥ maxUint64 / 10 + 1 then .error .rangeError
      else
        let n10 := n * 10
        let n1 := (n10 + d) % 2 ^ 64
        if n1 < n10 ∨ n1 > maxUint64 then .error .rangeError
        else parseUintLoop n1 cs
    else .error .syntaxError

/-- Go `strconv.ParseUint(s, 10, 64)`. -/
def ParseUint (s : Str) : Except NumError Nat :=
  if s = [] then .error .syntaxError else parseUintLoop 0 s

/-- Go `strconv.ParseInt(s, 10, 64)`: an optional sign, then `ParseUint`, then
the signed range check against `1 << 63`. -/
def ParseInt (s : Str) : Except NumError Int :=
  match s with
  | [] => .error .syntaxError
  | c :: cs =>
    let neg := c = '-'
    let body := if c = '+' ∨ c = '-' then cs else s
    match ParseUint body with
    | .error e => .error e
    | .ok un =>
      if ¬ neg ∧ un ≥ 2 ^ 63 then .error .rangeError
      else if neg ∧ un > 2 ^ 63 then .error .rangeError
      else .ok (if neg then - (un : Int) else (un : Int))

/-! ## Durations -/

/-- Reduction of an integer to the signed 64-bit range (two's complement). -/
def wrapInt64 (x : Int) : Int := (x + 2 ^ 63) % 2 ^ 64 - 2 ^ 63

/-- Go `time.Millisecond`, in nanoseconds. -/
def Millisecond : Int := 1000000

/-- Go `time.Millisecond * time.Duration(ms)`: an `int64` product. -/
def msDuration (ms : Int) : Int := wrapInt64 (Millisecond * ms)

/-! ## Commands -/

/-- The package-level error values. -/
inductive Err where
  | ErrUnknownCmd
  | ErrNoArgs
  | ErrBadArg
  deriving DecidableEq, Repr

/-- The three implementations of the `Command` interface: `Shell`, `Wait` and
`Delay`, each with its single field. -/
inductive Command where
  | Shell (Cmd : Str)
  | Wait (Duration : Int)
  | Delay (Interval : Int)
  deriving DecidableEq, Repr

/-- `const ControlPrefix`. -/
def ControlPrefix : Str := ['#', '$']

/-- `NewShell`. -/
def NewShell (cmd : Str) : Command := .Shell cmd

/-- `NewWait`. -/
def NewWait (opts : List Str) : Except Err Command :=
  match opts with
  | [] => .error .ErrNoArgs
  | opt :: _ =>
    match ParseInt opt with
    | .error _ => .error .ErrBadArg
    | .ok ms => .ok (.Wait (msDuration ms))

/-- `NewDelay`. -/
def NewDelay (opts : List Str) : Except Err Command :=
  match opts with
  | [] => .error .ErrNoArgs
  | opt :: _ =>
    match ParseInt opt with
    | .error _ => .error .ErrBadArg
    | .ok ms => .ok (.Delay (msDuration ms))

/-- `NewControlCommand`: `tokens[0]` selects the constructor, `tokens[1:]` are
its options. -/
def NewControlCommand (cmd : Str) : Except Err Command :=
  let tokens := Split ':' cmd
  if tokens.headD [] = "delay".toList then NewDelay tokens.tail
  else if tokens.headD [] = "wait".toList then NewWait tokens.tail
  else .error .ErrUnknownCmd

/-! ## Scripts -/

/-- `type Script struct`. -/
structure Script where
  Name : Str
  Commands : List Command
  TypingDelay : Int
  deriving DecidableEq, Repr

/-- The error built by `fmt.Errorf("%v (line %d)", err, i)`: the underlying
error and the line index printed after it. -/
structure ParseError where
  err : Err
  line : Nat
  deriving DecidableEq, Repr

/-- The `for i, line := range lines` loop of `NewScript`: `i` is the index of the
first remaining line, `cmds` is `s.Commands` and `curCmd` the accumulator.  On
success it returns the two at loop exit. -/
def scriptLoop (i : Nat) (cmds : List Command) (curCmd : Str) :
    List Str → Except ParseError (List Command × Str)
  | [] => .ok (cmds, curCmd)
  | line :: rest =>
    if line = [] then scriptLoop (i + 1) cmds curCmd rest
    else if HasPrefix line ControlPrefix then
      let cmds1 := if curCmd ≠ [] then cmds ++ [NewShell curCmd] else cmds
      match NewControlCommand (line.drop 2) with
      | .error err => .error ⟨err, i⟩
      | .ok ctrl => scriptLoop (i + 1) (cmds1 ++ [ctrl]) [] rest
    else scriptLoop (i + 1) cmds (curCmd ++ line ++ ['\n']) rest

/-- `NewScript`, from the point where the file has been read: `name` is the
absolute path stored in `s.Name` and `b` the file's content. -/
def NewScript (name : Str) (b : Str) : Except ParseError Script :=
  let lines := Split '\n' b
  match scriptLoop 0 [] [] lines with
  | .error e => .error e
  | .ok (cmds, curCmd) =>
    let cmds1 := if curCmd ≠ [] then cmds ++ [NewShell curCmd.dropLast] else cmds
    .ok { Name := name, Commands := cmds1, TypingDelay := Millisecond * 25 }

/-! ## Execution -/

/-- What a run does to the outside world: `fmt.Printf("%s", string(c))` and
`time.Sleep(d)`, in program order. -/
inductive Event where
  | Print (c : Char)
  | Sleep (d : Int)
  deriving DecidableEq, Repr

/-- The `Run` methods of `Shell`, `Wait` and `Delay`: the script after the call,
the events produced, and the returned error (`none` for `nil`).  The text of a
`Shell` is a character sequence, that is a valid UTF-8 string; `ShellRunBytes`
below is `Shell.Run` on an arbitrary byte string. -/
def Command.Run (c : Command) (sc : Script) : Script × List Event × Option Err :=
  match c with
  | .Shell cmd => (sc, cmd.foldr (fun ch ev => .Print ch :: .Sleep sc.TypingDelay :: ev) [], none)
  | .Wait d => (sc, [.Sleep d], none)
  | .Delay d => ({ sc with TypingDelay := d }, [], none)

/-- The error built by `fmt.Errorf("%v (command %d)", err, i)`. -/
structure RunError where
  err : Err
  command : Nat
  deriving DecidableEq, Repr

/-- The `for i, c := range s.Commands` loop of `Script.Run` over commands that
leave the elements of `s.Commands` as they are, as `Shell`, `Wait` and `Delay`
do: `i` is the index of the first remaining command, `sc` the script state and
`trace` the events so far.  `rangeLoop` below is the loop for arbitrary
implementations of the `Command` interface. -/
def runLoop {κ : Type} (run : κ → Script → Script × List Event × Option Err)
    (i : Nat) (sc : Script) (trace : List Event) :
    List κ → Script × List Event × Option RunError
  | [] => (sc, trace, none)
  | c :: cs =>
    match run c sc with
    | (sc1, ev, some err) => (sc1, trace ++ ev, some ⟨err, i⟩)
    | (sc1, ev, none) => runLoop run (i + 1) sc1 (trace ++ ev) cs

/-- `Script.Run`. -/
def Script.Run (s : Script) : Script × List Event × Option RunError :=
  runLoop Command.Run 0 s [] s.Commands

/-! ## Notions used to state the properties -/

/-- The two flushes of `NewScript`: before a directive the accumulator is stored
as it is. -/
def flushMid (cmds : List Command) (curCmd : Str) : List Command :=
  if curCmd ≠ [] then cmds ++ [NewShell curCmd] else cmds

/-- The flush at the end of input drops the last character of the accumulator. -/
def flushFinal (out : List Command × Str) : List Command :=
  if out.2 ≠ [] then out.1 ++ [NewShell out.2.dropLast] else out.1

/-- Lines joined by single newlines (Go `strings.Join(lines, "\n")`). -/
def joinLines : List Str → Str
  | [] => []
  | [l] => l
  | l :: ls => l ++ '\n' :: joinLines ls

/-- Lines each followed by a newline. -/
def unlines : List Str → Str
  | [] => []
  | l :: ls => l ++ '\n' :: unlines ls

/-- A line that carries the control prefix. -/
def isDirective (line : Str) : Bool := HasPrefix line ControlPrefix

/-- A line that is neither blank nor a directive: literal shell input. -/
def isLiteral (line : Str) : Bool := line ≠ [] && !isDirective line

/-- A prefixed line whose directive `NewControlCommand` rejects. -/
def isMalformed (line : Str) : Bool :=
  isDirective line && !(NewControlCommand (line.drop 2)).toBool

/-- The decimal digit for `d < 10`. -/
def digitChar (d : Nat) : Char := Char.ofNat ('0'.toNat + d)

/-- Decimal digits of `n`, most significant first, in front of `acc`. -/
def formatUintAux : Nat → Nat → Str → Str
  | 0, _, acc => acc
  | fuel + 1, n, acc =>
    if n < 10 then digitChar n :: acc
    else formatUintAux fuel (n / 10) (digitChar (n % 10) :: acc)

/-- A natural number written in decimal. -/
def formatUint (n : Nat) : Str := formatUintAux (n + 1) n []

/-- An integer written in decimal, with a minus sign when negative. -/
def formatInt (z : Int) : Str :=
  if z < 0 then '-' :: formatUint z.natAbs else formatUint z.natAbs

/-- The number denoted by a string of decimal digits read after the value `n`. -/
def digitsValue (n : Nat) (s : Str) : Nat :=
  s.foldl (fun a c => a * 10 + (c.toNat - '0'.toNat)) n

/-- Every character is one of `0` to `9`. -/
def allDigits (s : Str) : Bool := s.all (fun c => decide ('0' ≤ c ∧ c ≤ '9'))

/-- A valid base-10 signed 64-bit integer: an optional sign and at least one
digit, denoting a value between `-2^63` and `2^63 - 1`. -/
def validInt64 (s : Str) : Bool :=
  match s with
  | [] => false
  | '-' :: ds => ds ≠ [] && allDigits ds && decide (digitsValue 0 ds ≤ 2 ^ 63)
  | '+' :: ds => ds ≠ [] && allDigits ds && decide (digitsValue 0 ds < 2 ^ 63)
  | ds => allDigits ds && decide (digitsValue 0 ds < 2 ^ 63)

/-- The source lines grouped as the parser sees them: a maximal run of literal
lines (blank lines ignored) or a single directive line. -/
inductive Segment where
  | text (lines : List Str)
  | directive (line : Str)
  deriving DecidableEq, Repr

/-- Grouping of the lines of a script into segments, in source order. -/
def segments : List Str → List Segment
  | [] => []
  | l :: rest =>
    if l = [] then segments rest
    else if isDirective l then .directive l :: segments rest
    else
      match segments rest with
      | .text ls :: more => .text (l :: ls) :: more
      | more => .text [l] :: more

/-- The segment list of a pending run of literal lines. -/
def textSegment (pend : List Str) : List Segment :=
  if pend = [] then [] else [.text pend]

/-- The commands a list of segments stands for: a directive gives the command
`NewControlCommand` builds from it, a run of literal lines gives one `Shell`
whose text is the lines each followed by a newline, the last newline of the
script's final segment left out.  `none` when some directive is rejected. -/
def render : List Segment → Option (List Command)
  | [] => some []
  | [.text ls] => some [.Shell (unlines ls).dropLast]
  | .text ls :: rest => (render rest).map (fun cs => .Shell (unlines ls) :: cs)
  | .directive d :: rest =>
    match NewControlCommand (d.drop 2) with
    | .error _ => none
    | .ok c => (render rest).map (fun cs => c :: cs)

/-- The command sequence `NewScript` builds from a list of lines: the loop from an
empty state, then the final flush.  `none` when a directive is rejected. -/
def parseLines (lines : List Str) : Option (List Command) :=
  (scriptLoop 0 [] [] lines).toOption.map flushFinal

/-- A command built from literal text. -/
def Command.isShell : Command → Bool
  | .Shell _ => true
  | _ => false

/-- A segment that is a run of literal lines. -/
def Segment.isText : Segment → Bool
  | .text _ => true
  | .directive _ => false

/-- The line of a directive segment. -/
def Segment.directiveLine : Segment → Option Str
  | .text _ => none
  | .directive d => some d

/-- The source lines a segment is made of. -/
def Segment.sourceLines : Segment → List Str
  | .text ls => ls
  | .directive d => [d]

/-- A command stands for a segment: a directive for the command built from its
line, a run of literal lines for a `Shell` holding the lines each followed by a
newline, with or without the last newline. -/
def Segment.yields : Segment → Command → Prop
  | .text ls, c => c = .Shell (unlines ls) ∨ c = .Shell (unlines ls).dropLast
  | .directive d, c => NewControlCommand (d.drop 2) = .ok c

/-- The text of the package-level error values (`errors.New`). -/
def Err.Error : Err → Str
  | .ErrUnknownCmd => "unknown command".toList
  | .ErrNoArgs => "no arguments given to command".toList
  | .ErrBadArg => "invalid command argument".toList

/-- The message of a parse failure, as `fmt.Errorf("%v (line %d)", err, i)` writes
it. -/
def ParseError.Error (e : ParseError) : Str :=
  e.err.Error ++ " (line ".toList ++ formatUint e.line ++ ")".toList

/-- The events of typing `t` at delay `d`: each character printed and then a sleep
of `d`, in order. -/
def typed (t : Str) (d : Int) : List Event :=
  t.flatMap (fun ch => [.Print ch, .Sleep d])

/-- The characters a trace prints, in order. -/
def printed (trace : List Event) : Str :=
  trace.filterMap (fun ev => match ev with
    | .Print c => some c
    | .Sleep _ => none)

/-- The interval of a `Delay` command. -/
def Command.delayInterval : Command → Option Int
  | .Delay d => some d
  | _ => none

/-- The text of a `Shell` command. -/
def Command.shellText : Command → Option Str
  | .Shell t => some t
  | _ => none

/-- The interval of the last `Delay` command of a sequence, or `d0` when the
sequence has none. -/
def lastDelay (d0 : Int) (cmds : List Command) : Int :=
  (cmds.filterMap Command.delayInterval).getLast?.getD d0

/-- Sequential execution of every command of a list, whatever each returns: the
final state and the events in order. -/
def stepAll {κ : Type} (run : κ → Script → Script × List Event × Option Err)
    (sc : Script) : List κ → Script × List Event
  | [] => (sc, [])
  | c :: cs =>
    let r := stepAll run (run c sc).1 cs
    (r.1, (run c sc).2.1 ++ r.2)

/-- No command of the list fails when the list is executed in order from `sc`. -/
def noneFails {κ : Type} (run : κ → Script → Script × List Event × Option Err)
    (sc : Script) : List κ → Bool
  | [] => true
  | c :: cs => (run c sc).2.2.isNone && noneFails run (run c sc).1 cs

/-- Shape of a segment list: every run of literal lines is non-empty, made of
non-empty lines without a newline, and is not followed by another run. -/
def segmentsShaped : List Segment → Prop
  | [] => True
  | .text ls :: rest =>
    ls ≠ [] ∧ (∀ l ∈ ls, l ≠ [] ∧ '\n' ∉ l) ∧
      (∀ ls2 more, rest ≠ .text ls2 :: more) ∧ segmentsShaped rest
  | .directive _ :: rest => segmentsShaped rest

/-- Shape of a command list: every `Shell` text is non-empty; a `Shell` that is not
last ends with a newline and is followed by a command that is not a `Shell`; a
`Shell` that is last does not end with a newline. -/
def commandsShaped : List Command → Prop
  | [] => True
  | [.Shell t] => t ≠ [] ∧ t.getLast? ≠ some '\n'
  | .Shell t :: c :: rest =>
    t ≠ [] ∧ t.getLast? = some '\n' ∧ c.isShell = false ∧ commandsShaped (c :: rest)
  | _ :: rest => commandsShaped rest

/-! ## The execution loop over arbitrary commands -/

/-- The `for i, c := range s.Commands` loop of `Script.Run` for arbitrary
implementations `run` of the `Command` interface.  A command receives the pointer
to the script and can write to whatever is reachable from it, the elements of
`s.Commands` included; `σ` is that whole store.  `range` evaluates `s.Commands`
once: the number of iterations is the length at entry, and iteration `i` reads
element `i` of the slice as the store holds it at that time, `elem st i`.  The
first argument counts the iterations that remain. -/
def rangeLoop {σ κ : Type} (run : κ → σ → σ × List Event × Option Err)
    (elem : σ → Nat → κ) :
    Nat → Nat → σ → List Event → σ × List Event × Option RunError
  | 0, _, st, trace => (st, trace, none)
  | remaining + 1, i, st, trace =>
    match run (elem st i) st with
    | (st1, ev, some err) => (st1, trace ++ ev, some ⟨err, i⟩)
    | (st1, ev, none) => rangeLoop run elem remaining (i + 1) st1 (trace ++ ev)

/-- Element `i` of `s.Commands` read from the script itself; past the end, a
command that does nothing. -/
def scriptElem (st : Script) (i : Nat) : Command := st.Commands.getD i (.Wait 0)

/-- The store before the command at index `j` runs, when every command found at
an earlier index has been run in order from `st`. -/
def storeBefore {σ κ : Type} (run : κ → σ → σ × List Event × Option Err)
    (elem : σ → Nat → κ) (st : σ) : Nat → σ
  | 0 => st
  | j + 1 => (run (elem (storeBefore run elem st j) j) (storeBefore run elem st j)).1

/-- The command found at index `j` when its turn comes. -/
def commandAt {σ κ : Type} (run : κ → σ → σ × List Event × Option Err)
    (elem : σ → Nat → κ) (st : σ) (j : Nat) : κ :=
  elem (storeBefore run elem st j) j

/-- The events of the commands found at the indices below `j`, in order. -/
def eventsBefore {σ κ : Type} (run : κ → σ → σ × List Event × Option Err)
    (elem : σ → Nat → κ) (st : σ) : Nat → List Event
  | 0 => []
  | j + 1 =>
    eventsBefore run elem st j ++
      (run (commandAt run elem st j) (storeBefore run elem st j)).2.1

/-- What the command found at index `j` returns when its turn comes. -/
def errorAt {σ κ : Type} (run : κ → σ → σ × List Event × Option Err)
    (elem : σ → Nat → κ) (st : σ) (j : Nat) : Option Err :=
  (run (commandAt run elem st j) (storeBefore run elem st j)).2.2

/-- An example of other implementations of the `Command` interface: one that
succeeds, one that fails, and one that stores a command at an index of the
sequence being run. -/
inductive ExampleCommand where
  | succeed
  | fail
  | overwrite (j : Nat) (c : ExampleCommand)
  deriving DecidableEq, Repr

/-- The `Run` methods of the example commands; the store is the sequence being
run. -/
def ExampleCommand.Run :
    ExampleCommand → List ExampleCommand → List ExampleCommand × List Event × Option Err
  | .succeed, st => (st, [.Sleep 1], none)
  | .fail, st => (st, [.Print '!'], some .ErrBadArg)
  | .overwrite j c, st => (st.set j c, [], none)

/-- Element `i` of the example sequence. -/
def exampleElem (st : List ExampleCommand) (i : Nat) : ExampleCommand :=
  st.getD i .succeed

/-! ## Typed text as bytes -/

/-- Go `utf8.RuneError`, the replacement character U+FFFD. -/
def RuneError : Nat := 0xFFFD

/-- Size of the encoding announced by a first byte (table `first` of Go's
`unicode/utf8`): 1 for ASCII, 0 for a byte that cannot start an encoding. -/
def runeSize (s0 : Nat) : Nat :=
  if s0 < 0x80 then 1
  else if s0 < 0xC2 then 0
  else if s0 < 0xE0 then 2
  else if s0 < 0xF0 then 3
  else if s0 < 0xF5 then 4
  else 0

/-- Lowest second byte accepted after the first byte `s0` (`acceptRanges`). -/
def acceptLo (s0 : Nat) : Nat :=
  if s0 = 0xE0 then 0xA0 else if s0 = 0xF0 then 0x90 else 0x80

/-- Highest second byte accepted after the first byte `s0` (`acceptRanges`). -/
def acceptHi (s0 : Nat) : Nat :=
  if s0 = 0xED then 0x9F else if s0 = 0xF4 then 0x8F else 0xBF

/-- Go `utf8.DecodeRuneInString`, which `range` over a string applies at each
step: the rune at the start of the bytes and its width; `RuneError` with width 1
for an invalid or truncated encoding.  Masks and shifts are written as
remainders and products. -/
def DecodeRune : List Nat → Nat × Nat
  | [] => (RuneError, 0)
  | s0 :: rest =>
    if runeSize s0 = 1 then (s0, 1)
    else if runeSize s0 = 0 then (RuneError, 1)
    else if rest.length + 1 < runeSize s0 then (RuneError, 1)
    else if rest.getD 0 0 < acceptLo s0 ∨ acceptHi s0 < rest.getD 0 0 then (RuneError, 1)
    else if runeSize s0 ≤ 2 then (s0 % 32 * 64 + rest.getD 0 0 % 64, 2)
    else if rest.getD 1 0 < 0x80 ∨ 0xBF < rest.getD 1 0 then (RuneError, 1)
    else if runeSize s0 ≤ 3 then
      (s0 % 16 * 4096 + rest.getD 0 0 % 64 * 64 + rest.getD 1 0 % 64, 3)
    else if rest.getD 2 0 < 0x80 ∨ 0xBF < rest.getD 2 0 then (RuneError, 1)
    else
      (s0 % 8 * 262144 + rest.getD 0 0 % 64 * 4096 + rest.getD 1 0 % 64 * 64 +
        rest.getD 2 0 % 64, 4)

/-- Go `string(r)` for a rune `r` (`utf8.EncodeRune`): the UTF-8 bytes of `r`, those
of U+FFFD for a surrogate or a value above U+10FFFF. -/
def EncodeRune (r : Nat) : List Nat :=
  if r < 0x80 then [r]
  else if r < 0x800 then [0xC0 + r / 64, 0x80 + r % 64]
  else if (0xD800 ≤ r ∧ r ≤ 0xDFFF) ∨ 0x10FFFF < r then [0xEF, 0xBF, 0xBD]
  else if r < 0x10000 then [0xE0 + r / 4096, 0x80 + r / 64 % 64, 0x80 + r % 64]
  else [0xF0 + r / 262144, 0x80 + r / 4096 % 64, 0x80 + r / 64 % 64, 0x80 + r % 64]

/-- The loop `for _, c := range s.Cmd` of `Shell.Run` over the bytes of `s.Cmd`:
`skip` is the number of bytes still belonging to the rune read last; at the start
of a rune it is decoded, printed as `string(c)` and followed by a sleep of `d`. -/
def rangeString (d : Int) : Nat → List Nat → List Event
  | _, [] => []
  | skip + 1, _ :: rest => rangeString d skip rest
  | 0, b :: rest =>
    .Print (Char.ofNat (DecodeRune (b :: rest)).1) :: .Sleep d ::
      rangeString d ((DecodeRune (b :: rest)).2 - 1) rest

/-- `Shell.Run` on a command text given as bytes: the events produced. -/
def ShellRunBytes (cmd : List Nat) (sc : Script) : List Event :=
  rangeString sc.TypingDelay 0 cmd

/-- The UTF-8 bytes of a character sequence. -/
def utf8 (cs : List Char) : List Nat := cs.flatMap (fun c => EncodeRune c.toNat)

/-- The bytes a trace writes to the output, in order. -/
def emitted (trace : List Event) : List Nat :=
  trace.flatMap (fun ev => match ev with
    | .Print c => EncodeRune c.toNat
    | .Sleep _ => [])

/-! ## Splitting and joining -/

theorem Split_ne_nil (sep : Char) (s : Str) : Split sep s ≠ [] := by
  induction s with
  | nil => simp [Split]
  | cons c cs ih =>
    by_cases h : c = sep
    · simp [Split, h]
    · cases hs : Split sep cs <;> simp [Split, h, hs]

theorem Split_of_not_mem (sep : Char) (s : Str) (h : sep ∉ s) : Split sep s = [s] := by
  induction s with
  | nil => simp [Split]
  | cons c cs ih =>
    have hc : c ≠ sep := fun e => h (by simp [e])
    have hcs : sep ∉ cs := fun e => h (by simp [e])
    simp [Split, hc, ih hcs]

theorem Split_append_sep (sep : Char) (a b : Str) (h : sep ∉ a) :
    Split sep (a ++ sep :: b) = a :: Split sep b := by
  induction a with
  | nil => simp [Split]
  | cons c cs ih =>
    have hc : c ≠ sep := fun e => h (by simp [e])
    have hcs : sep ∉ cs := fun e => h (by simp [e])
    simp [Split, hc, ih hcs]

theorem Split_joinLines (ls : List Str) (hne : ls ≠ []) (h : ∀ l ∈ ls, '\n' ∉ l) :
    Split '\n' (joinLines ls) = ls := by
  induction ls with
  | nil => exact absurd rfl hne
  | cons l rest ih =>
    cases rest with
    | nil => simpa [joinLines] using Split_of_not_mem _ l (h l (by simp))
    | cons l2 rest2 =>
      have h1 : '\n' ∉ l := h l (by simp)
      have h2 := ih (by simp) (fun x hx => h x (by simp [hx]))
      simp only [joinLines] at h2 ⊢
      rw [Split_append_sep _ _ _ h1, h2]

theorem Split_joinLines_newline (ls : List Str) (h : ∀ l ∈ ls, '\n' ∉ l) :
    Split '\n' (unlines ls) = ls ++ [[]] := by
  induction ls with
  | nil => simp [unlines, Split]
  | cons l rest ih =>
    have h1 : '\n' ∉ l := h l (by simp)
    simp only [unlines]
    rw [Split_append_sep _ _ _ h1, ih (fun x hx => h x (by simp [hx]))]
    simp

theorem unlines_eq_joinLines (ls : List Str) (hne : ls ≠ []) :
    unlines ls = joinLines ls ++ ['\n'] := by
  induction ls with
  | nil => exact absurd rfl hne
  | cons l rest ih =>
    cases rest with
    | nil => simp [unlines, joinLines]
    | cons l2 rest2 =>
      have h2 := ih (by simp)
      simp only [unlines, joinLines] at h2 ⊢
      rw [h2]; simp

theorem unlines_append (a b : List Str) : unlines (a ++ b) = unlines a ++ unlines b := by
  induction a with
  | nil => simp [unlines]
  | cons l rest ih => simp [unlines, ih]

theorem unlines_eq_nil (ls : List Str) : unlines ls = [] ↔ ls = [] := by
  cases ls <;> simp [unlines]

/-! ## The parsing loop -/

theorem isDirective_ne_nil (line : Str) (h : isDirective line = true) : line ≠ [] := by
  rintro rfl
  simp [isDirective, HasPrefix, ControlPrefix] at h

theorem line_cases (line : Str) :
    line = [] ∨ isDirective line = true ∨ isLiteral line = true := by
  by_cases h1 : line = []
  · exact Or.inl h1
  · by_cases h2 : isDirective line = true
    · exact Or.inr (Or.inl h2)
    · exact Or.inr (Or.inr (by simp [isLiteral, h1, h2]))

theorem isLiteral_iff (line : Str) :
    isLiteral line = true ↔ line ≠ [] ∧ isDirective line = false := by
  simp [isLiteral]

theorem scriptLoop_blank (i : Nat) (cmds : List Command) (cur : Str) (rest : List Str) :
    scriptLoop i cmds cur ([] :: rest) = scriptLoop (i + 1) cmds cur rest := by
  simp [scriptLoop]

theorem scriptLoop_directive (i : Nat) (cmds : List Command) (cur : Str) (line : Str)
    (rest : List Str) (h : isDirective line = true) :
    scriptLoop i cmds cur (line :: rest) =
      match NewControlCommand (line.drop 2) with
      | .error err => .error ⟨err, i⟩
      | .ok ctrl => scriptLoop (i + 1) (flushMid cmds cur ++ [ctrl]) [] rest := by
  have h1 : line ≠ [] := isDirective_ne_nil line h
  have h2 : HasPrefix line ControlPrefix = true := h
  simp only [scriptLoop, h1, h2, if_true, if_false, flushMid]

theorem scriptLoop_literal (i : Nat) (cmds : List Command) (cur : Str) (line : Str)
    (rest : List Str) (h : isLiteral line = true) :
    scriptLoop i cmds cur (line :: rest) =
      scriptLoop (i + 1) cmds (cur ++ line ++ ['\n']) rest := by
  obtain ⟨h1, h2⟩ := (isLiteral_iff line).1 h
  have h3 : HasPrefix line ControlPrefix = false := h2
  simp [scriptLoop, h1, h3]

theorem scriptLoop_append (l1 l2 : List Str) (i : Nat) (cmds : List Command) (cur : Str) :
    scriptLoop i cmds cur (l1 ++ l2) =
      match scriptLoop i cmds cur l1 with
      | .error e => .error e
      | .ok out => scriptLoop (i + l1.length) out.1 out.2 l2 := by
  induction l1 generalizing i cmds cur with
  | nil => simp [scriptLoop]
  | cons line rest ih =>
    have e : i + (rest.length + 1) = i + 1 + rest.length := by omega
    rw [List.cons_append, List.length_cons, e]
    rcases line_cases line with h | h | h
    · subst h
      rw [scriptLoop_blank, scriptLoop_blank]
      exact ih _ _ _
    · rw [scriptLoop_directive _ _ _ _ _ h, scriptLoop_directive _ _ _ _ _ h]
      cases NewControlCommand (line.drop 2) with
      | error err => rfl
      | ok ctrl => exact ih _ _ _
    · rw [scriptLoop_literal _ _ _ _ _ h, scriptLoop_literal _ _ _ _ _ h]
      exact ih _ _ _

theorem flushMid_append (cmds : List Command) (cur : Str) :
    flushMid cmds cur = cmds ++ flushMid [] cur := by
  unfold flushMid
  split_ifs <;> simp

theorem scriptLoop_cmds (ls : List Str) (i : Nat) (cmds : List Command) (cur : Str) :
    scriptLoop i cmds cur ls =
      match scriptLoop i [] cur ls with
      | .error e => .error e
      | .ok out => .ok (cmds ++ out.1, out.2) := by
  induction ls generalizing i cmds cur with
  | nil => simp [scriptLoop]
  | cons line rest ih =>
    rcases line_cases line with h | h | h
    · subst h
      rw [scriptLoop_blank, scriptLoop_blank]
      exact ih _ _ _
    · rw [scriptLoop_directive _ _ _ _ _ h, scriptLoop_directive _ _ _ _ _ h]
      cases NewControlCommand (line.drop 2) with
      | error err => rfl
      | ok ctrl =>
        simp only []
        rw [ih _ (flushMid cmds cur ++ [ctrl]), ih _ (flushMid [] cur ++ [ctrl]),
          flushMid_append cmds cur]
        cases scriptLoop (i + 1) [] [] rest <;> simp
    · rw [scriptLoop_literal _ _ _ _ _ h, scriptLoop_literal _ _ _ _ _ h]
      exact ih _ _ _

theorem scriptLoop_noDirective (ls : List Str) (h : ∀ l ∈ ls, isDirective l = false)
    (i : Nat) (cmds : List Command) (cur : Str) :
    scriptLoop i cmds cur ls =
      .ok (cmds, cur ++ unlines (ls.filter (fun l => decide (l ≠ [])))) := by
  induction ls generalizing i cur with
  | nil => simp [scriptLoop, unlines]
  | cons line rest ih =>
    have hrest : ∀ l ∈ rest, isDirective l = false := fun l hl => h l (by simp [hl])
    rcases line_cases line with h1 | h1 | h1
    · subst h1
      rw [scriptLoop_blank, ih hrest]
      simp
    · have := h line (by simp)
      simp [h1] at this
    · rw [scriptLoop_literal _ _ _ _ _ h1, ih hrest]
      have hne : line ≠ [] := ((isLiteral_iff line).1 h1).1
      simp [List.filter_cons, hne, unlines]

theorem scriptLoop_filter (ls : List Str) (i j : Nat) (cmds : List Command) (cur : Str) :
    (scriptLoop i cmds cur ls).toOption =
      (scriptLoop j cmds cur (ls.filter (fun l => decide (l ≠ [])))).toOption := by
  induction ls generalizing i j cmds cur with
  | nil => simp [scriptLoop]
  | cons line rest ih =>
    rcases line_cases line with h1 | h1 | h1
    · subst h1
      rw [scriptLoop_blank]
      simpa using ih (i + 1) j cmds cur
    · have hne : line ≠ [] := isDirective_ne_nil line h1
      rw [List.filter_cons_of_pos (by simpa using hne),
        scriptLoop_directive _ _ _ _ _ h1, scriptLoop_directive _ _ _ _ _ h1]
      cases NewControlCommand (line.drop 2) with
      | error err => rfl
      | ok ctrl => exact ih _ _ _ _
    · have hne : line ≠ [] := ((isLiteral_iff line).1 h1).1
      rw [List.filter_cons_of_pos (by simpa using hne),
        scriptLoop_literal _ _ _ _ _ h1, scriptLoop_literal _ _ _ _ _ h1]
      exact ih _ _ _ _

theorem isMalformed_false_iff (line : Str) :
    isMalformed line = false ↔
      (isDirective line = true → ∃ c, NewControlCommand (line.drop 2) = .ok c) := by
  unfold isMalformed
  cases hd : isDirective line <;> cases hc : NewControlCommand (line.drop 2) <;>
    simp [Except.toBool]

theorem scriptLoop_ok_of_wellFormed (ls : List Str) (h : ∀ l ∈ ls, isMalformed l = false)
    (i : Nat) (cmds : List Command) (cur : Str) :
    ∃ out, scriptLoop i cmds cur ls = .ok out := by
  induction ls generalizing i cmds cur with
  | nil => exact ⟨_, rfl⟩
  | cons line rest ih =>
    have hrest : ∀ l ∈ rest, isMalformed l = false := fun l hl => h l (by simp [hl])
    rcases line_cases line with h1 | h1 | h1
    · subst h1
      rw [scriptLoop_blank]
      exact ih hrest _ _ _
    · obtain ⟨c, hc⟩ := (isMalformed_false_iff line).1 (h line (by simp)) h1
      rw [scriptLoop_directive _ _ _ _ _ h1, hc]
      exact ih hrest _ _ _
    · rw [scriptLoop_literal _ _ _ _ _ h1]
      exact ih hrest _ _ _

theorem wellFormed_of_scriptLoop_ok (ls : List Str) (i : Nat) (cmds : List Command)
    (cur : Str) (out : List Command × Str) (h : scriptLoop i cmds cur ls = .ok out) :
    ∀ l ∈ ls, isMalformed l = false := by
  induction ls generalizing i cmds cur with
  | nil => simp
  | cons line rest ih =>
    rcases line_cases line with h1 | h1 | h1
    · subst h1
      rw [scriptLoop_blank] at h
      intro l hl
      rcases List.mem_cons.1 hl with rfl | hl
      · simp [isMalformed, isDirective, HasPrefix, ControlPrefix]
      · exact ih _ _ _ h l hl
    · rw [scriptLoop_directive _ _ _ _ _ h1] at h
      cases hc : NewControlCommand (line.drop 2) with
      | error err => simp [hc] at h
      | ok ctrl =>
        rw [hc] at h
        intro l hl
        rcases List.mem_cons.1 hl with rfl | hl
        · exact (isMalformed_false_iff _).2 (fun _ => ⟨ctrl, hc⟩)
        · exact ih _ _ _ h l hl
    · rw [scriptLoop_literal _ _ _ _ _ h1] at h
      intro l hl
      rcases List.mem_cons.1 hl with rfl | hl
      · have := ((isLiteral_iff _).1 h1).2
        simp [isMalformed, this]
      · exact ih _ _ _ h l hl

theorem scriptLoop_first_malformed (pre post : List Str) (line : Str) (e : Err)
    (hpre : ∀ l ∈ pre, isMalformed l = false) (hd : isDirective line = true)
    (he : NewControlCommand (line.drop 2) = .error e) (i : Nat) (cmds : List Command)
    (cur : Str) :
    scriptLoop i cmds cur (pre ++ line :: post) = .error ⟨e, i + pre.length⟩ := by
  obtain ⟨out, hout⟩ := scriptLoop_ok_of_wellFormed pre hpre i cmds cur
  rw [scriptLoop_append, hout]
  simp only []
  rw [scriptLoop_directive _ _ _ _ _ hd, he]

/-! ## Segments and their rendering -/

theorem segments_blank (rest : List Str) : segments ([] :: rest) = segments rest := by
  simp [segments]

theorem segments_directive (d : Str) (rest : List Str) (h : isDirective d = true) :
    segments (d :: rest) = .directive d :: segments rest := by
  have hne := isDirective_ne_nil d h
  simp [segments, hne, h]

theorem segments_literal (l : Str) (rest : List Str) (h : isLiteral l = true) :
    segments (l :: rest) =
      match segments rest with
      | .text ls :: more => .text (l :: ls) :: more
      | more => .text [l] :: more := by
  obtain ⟨h1, h2⟩ := (isLiteral_iff l).1 h
  simp [segments, h1, h2]

theorem segments_append_blank (a b : List Str) :
    segments (a ++ [] :: b) = segments (a ++ b) := by
  induction a with
  | nil => simp [segments]
  | cons l rest ih =>
    rcases line_cases l with h | h | h
    · subst h
      simp only [List.cons_append, segments_blank, ih]
    · simp only [List.cons_append, segments_directive _ _ h, ih]
    · simp only [List.cons_append, segments_literal _ _ h, ih]

theorem segments_filter (ls : List Str) :
    segments (ls.filter (fun l => decide (l ≠ []))) = segments ls := by
  induction ls with
  | nil => rfl
  | cons l rest ih =>
    rcases line_cases l with h | h | h
    · subst h
      simpa [segments_blank] using ih
    · have hne := isDirective_ne_nil l h
      rw [List.filter_cons_of_pos (by simpa using hne), segments_directive _ _ h,
        segments_directive _ _ h, ih]
    · have hne := ((isLiteral_iff l).1 h).1
      rw [List.filter_cons_of_pos (by simpa using hne), segments_literal _ _ h,
        segments_literal _ _ h, ih]

theorem segments_pending_directive (pend : List Str) (d : Str) (rest : List Str)
    (hp : ∀ l ∈ pend, isLiteral l = true) (hd : isDirective d = true) :
    segments (pend ++ d :: rest) = textSegment pend ++ .directive d :: segments rest := by
  induction pend with
  | nil => simp [textSegment, segments_directive _ _ hd]
  | cons l ls ih =>
    have hl : isLiteral l = true := hp l (by simp)
    have ih2 := ih (fun x hx => hp x (by simp [hx]))
    rw [List.cons_append, segments_literal _ _ hl, ih2]
    cases ls with
    | nil => simp [textSegment]
    | cons l2 ls2 => simp [textSegment]

theorem segments_pending (pend : List Str) (hp : ∀ l ∈ pend, isLiteral l = true) :
    segments pend = textSegment pend := by
  induction pend with
  | nil => simp [textSegment, segments]
  | cons l ls ih =>
    have hl : isLiteral l = true := hp l (by simp)
    have ih2 := ih (fun x hx => hp x (by simp [hx]))
    rw [segments_literal _ _ hl, ih2]
    cases ls with
    | nil => simp [textSegment]
    | cons l2 ls2 => simp [textSegment]

theorem render_text_directive (ls : List Str) (d : Str) (rest : List Segment) :
    render (.text ls :: .directive d :: rest) =
      (render (.directive d :: rest)).map (fun cs => .Shell (unlines ls) :: cs) := by
  simp [render]

/-- The loop followed by the final flush computes the rendering of the segments of
the pending literal lines and the remaining lines. -/
theorem scriptLoop_render (ls : List Str) (i : Nat) (cmds : List Command) (pend : List Str)
    (hp : ∀ l ∈ pend, isLiteral l = true) :
    (scriptLoop i cmds (unlines pend) ls).toOption.map flushFinal =
      (render (segments (pend ++ ls))).map (fun cs => cmds ++ cs) := by
  induction ls generalizing i cmds pend with
  | nil =>
    rw [List.append_nil, segments_pending pend hp]
    cases pend with
    | nil => simp [scriptLoop, Except.toOption, flushFinal, textSegment, render, unlines]
    | cons l ls2 =>
      simp [scriptLoop, Except.toOption, flushFinal, textSegment, render, unlines, NewShell]
  | cons line rest ih =>
    rcases line_cases line with h | h | h
    · subst h
      rw [scriptLoop_blank, segments_append_blank]
      exact ih _ _ _ hp
    · rw [scriptLoop_directive _ _ _ _ _ h, segments_pending_directive _ _ _ hp h]
      cases hc : NewControlCommand (line.drop 2) with
      | error err =>
        cases pend with
        | nil => simp [textSegment, render, hc, Except.toOption]
        | cons l ls2 => simp [textSegment, render, hc, Except.toOption]
      | ok ctrl =>
        have ih2 := ih (i + 1) (flushMid cmds (unlines pend) ++ [ctrl]) [] (by simp)
        simp only [unlines, List.nil_append] at ih2
        simp only []
        rw [ih2]
        cases hr : render (segments rest) with
        | none =>
          cases pend with
          | nil => simp [textSegment, render, hc, hr]
          | cons l ls2 => simp [textSegment, render, hc, hr]
        | some cs =>
          cases pend with
          | nil => simp [textSegment, render, hc, hr, flushMid, unlines]
          | cons l ls2 => simp [textSegment, render, hc, hr, flushMid, unlines, NewShell]
    · rw [scriptLoop_literal _ _ _ _ _ h]
      have hp2 : ∀ l ∈ pend ++ [line], isLiteral l = true := by
        intro l hl
        rcases List.mem_append.1 hl with hl | hl
        · exact hp l hl
        · simp at hl; subst hl; exact h
      have ih2 := ih (i + 1) cmds (pend ++ [line]) hp2
      have e1 : unlines (pend ++ [line]) = unlines pend ++ line ++ ['\n'] := by
        simp [unlines_append, unlines]
      have e2 : pend ++ [line] ++ rest = pend ++ line :: rest := by simp
      rw [e1, e2] at ih2
      exact ih2

theorem NewScript_eq (name b : Str) :
    NewScript name b =
      match scriptLoop 0 [] [] (Split '\n' b) with
      | .error e => .error e
      | .ok out => .ok ⟨name, flushFinal out, Millisecond * 25⟩ := by
  unfold NewScript
  dsimp only
  cases scriptLoop 0 [] [] (Split '\n' b) with
  | error e => rfl
  | ok out => rfl

/-- Refinement: `NewScript` succeeds with exactly the rendering of the segments of
its lines. -/
theorem NewScript_eq_ok_iff (name b : Str) (s : Script) :
    NewScript name b = .ok s ↔
      s.Name = name ∧ s.TypingDelay = Millisecond * 25 ∧
        render (segments (Split '\n' b)) = some s.Commands := by
  have h := scriptLoop_render (Split '\n' b) 0 [] [] (by simp)
  simp only [unlines, List.nil_append] at h
  rw [NewScript_eq]
  cases hl : scriptLoop 0 [] [] (Split '\n' b) with
  | error e =>
    rw [hl] at h
    simp only [Except.toOption, Option.map_none'] at h
    cases hr : render (segments (Split '\n' b)) with
    | none => simp
    | some cs => simp [hr] at h
  | ok out =>
    rw [hl] at h
    simp only [Except.toOption, Option.map_some'] at h
    cases hr : render (segments (Split '\n' b)) with
    | none => simp [hr] at h
    | some cs =>
      simp only [hr, Option.map_some', Option.some.injEq] at h
      simp only [Except.ok.injEq, Option.some.injEq]
      constructor
      · rintro rfl
        exact ⟨rfl, rfl, h.symm⟩
      · rintro ⟨h1, h2, h3⟩
        cases s
        simp only at h1 h2 h3
        subst h1 h2 h3
        rw [h]

/-! ## Numerals -/

theorem digit_toNat (c : Char) (h : '0' ≤ c ∧ c ≤ '9') :
    48 ≤ c.toNat ∧ c.toNat ≤ 57 :=
  ⟨Char.le_def.1 h.1, Char.le_def.1 h.2⟩

theorem digitsValue_cons (n : Nat) (c : Char) (cs : Str) :
    digitsValue n (c :: cs) = digitsValue (n * 10 + (c.toNat - '0'.toNat)) cs := rfl

theorem digitsValue_append (n : Nat) (a b : Str) :
    digitsValue n (a ++ b) = digitsValue (digitsValue n a) b := by
  simp [digitsValue, List.foldl_append]

theorem le_digitsValue (s : Str) (n : Nat) : n ≤ digitsValue n s := by
  induction s generalizing n with
  | nil => exact Nat.le_refl _
  | cons c cs ih =>
    rw [digitsValue_cons]
    exact Nat.le_trans (by omega) (ih _)

theorem allDigits_cons (c : Char) (cs : Str) :
    allDigits (c :: cs) = true ↔ ('0' ≤ c ∧ c ≤ '9') ∧ allDigits cs = true := by
  simp [allDigits]

theorem parseUintLoop_eq_ok_iff (s : Str) (n m : Nat) (hn : n ≤ maxUint64) :
    parseUintLoop n s = .ok m ↔
      allDigits s = true ∧ digitsValue n s ≤ maxUint64 ∧ m = digitsValue n s := by
  have hmax : maxUint64 = 18446744073709551615 := by norm_num [maxUint64]
  induction s generalizing n with
  | nil =>
    simp only [parseUintLoop, Except.ok.injEq, digitsValue, List.foldl_nil, allDigits,
      List.all_nil, true_and]
    constructor
    · rintro rfl; exact ⟨hn, rfl⟩
    · rintro ⟨_, h⟩; exact h.symm
  | cons c cs ih =>
    rw [allDigits_cons, digitsValue_cons]
    unfold parseUintLoop
    by_cases hc : '0' ≤ c ∧ c ≤ '9'
    · obtain ⟨h48, h57⟩ := digit_toNat c hc
      have h0 : '0'.toNat = 48 := rfl
      rw [if_pos hc]
      by_cases hcut : n ≥ maxUint64 / 10 + 1
      · rw [if_pos hcut]
        have hge := le_digitsValue cs (n * 10 + (c.toNat - '0'.toNat))
        constructor
        · intro h; cases h
        · rintro ⟨_, hle, _⟩
          rw [hmax] at hcut hle
          omega
      · rw [if_neg hcut]
        dsimp only
        rw [hmax] at hcut
        by_cases hov : n * 10 + (c.toNat - '0'.toNat) < 2 ^ 64
        · have hmod : (n * 10 + (c.toNat - '0'.toNat)) % 2 ^ 64 =
              n * 10 + (c.toNat - '0'.toNat) := Nat.mod_eq_of_lt hov
          have hle : n * 10 + (c.toNat - '0'.toNat) ≤ maxUint64 := by rw [hmax]; omega
          rw [hmod, if_neg (by rw [hmax]; omega)]
          exact (ih (n * 10 + (c.toNat - '0'.toNat)) hle).trans (by simp [hc])
        · have hge := le_digitsValue cs (n * 10 + (c.toNat - '0'.toNat))
          rw [if_pos (by left; omega)]
          constructor
          · intro h; cases h
          · rintro ⟨_, hle, _⟩
            rw [hmax] at hle
            omega
    · rw [if_neg hc]
      constructor
      · intro h; cases h
      · rintro ⟨⟨h, _⟩, _⟩; exact absurd h hc

theorem ParseUint_eq_ok_iff (s : Str) (m : Nat) :
    ParseUint s = .ok m ↔
      s ≠ [] ∧ allDigits s = true ∧ digitsValue 0 s ≤ maxUint64 ∧ m = digitsValue 0 s := by
  unfold ParseUint
  by_cases hs : s = []
  · simp [hs]
  · rw [if_neg hs, parseUintLoop_eq_ok_iff s 0 m (Nat.zero_le _)]
    simp [hs]

theorem ParseInt_minus (ds : Str) (z : Int) :
    ParseInt ('-' :: ds) = .ok z ↔
      ds ≠ [] ∧ allDigits ds = true ∧ digitsValue 0 ds ≤ 2 ^ 63 ∧
        z = - (digitsValue 0 ds : Int) := by
  have hmax : maxUint64 = 18446744073709551615 := by norm_num [maxUint64]
  unfold ParseInt
  simp only [or_true, if_true, true_and, not_true_eq_false, false_and, if_false]
  cases hu : ParseUint ds with
  | error e =>
    have := (ParseUint_eq_ok_iff ds (digitsValue 0 ds)).not.1 (by rw [hu]; simp)
    simp only [reduceCtorEq, false_iff]
    rintro ⟨h1, h2, h3, _⟩
    exact this ⟨h1, h2, by rw [hmax]; omega, rfl⟩
  | ok un =>
    obtain ⟨h1, h2, h3, h4⟩ := (ParseUint_eq_ok_iff ds un).1 hu
    subst h4
    by_cases hr : digitsValue 0 ds > 2 ^ 63
    · simp only [hr, if_true, reduceCtorEq, false_iff]
      rintro ⟨_, _, h, _⟩
      omega
    · simp only [hr, if_false, Except.ok.injEq]
      constructor
      · rintro rfl
        exact ⟨h1, h2, by omega, rfl⟩
      · rintro ⟨_, _, _, h⟩
        exact h.symm

theorem ParseInt_plain (s body : Str) (z : Int)
    (hb : ParseInt s = ParseInt ('+' :: body)) :
    ParseInt s = .ok z ↔
      body ≠ [] ∧ allDigits body = true ∧ digitsValue 0 body < 2 ^ 63 ∧
        z = (digitsValue 0 body : Int) := by
  have hmax : maxUint64 = 18446744073709551615 := by norm_num [maxUint64]
  rw [hb]
  unfold ParseInt
  have hpm : ('+' : Char) ≠ '-' := by decide
  simp only [true_or, if_true, hpm, false_and, if_false, not_false_eq_true, true_and]
  cases hu : ParseUint body with
  | error e =>
    have := (ParseUint_eq_ok_iff body (digitsValue 0 body)).not.1 (by rw [hu]; simp)
    simp only [reduceCtorEq, false_iff]
    rintro ⟨h1, h2, h3, _⟩
    exact this ⟨h1, h2, by rw [hmax]; omega, rfl⟩
  | ok un =>
    obtain ⟨h1, h2, h3, h4⟩ := (ParseUint_eq_ok_iff body un).1 hu
    subst h4
    by_cases hr : digitsValue 0 body ≥ 2 ^ 63
    · simp only [hr, if_true, reduceCtorEq, false_iff]
      rintro ⟨_, _, h, _⟩
      omega
    · simp only [hr, if_false, Except.ok.injEq]
      constructor
      · rintro rfl
        exact ⟨h1, h2, by omega, rfl⟩
      · rintro ⟨_, _, _, h⟩
        exact h.symm

theorem ParseInt_plus (ds : Str) (z : Int) :
    ParseInt ('+' :: ds) = .ok z ↔
      ds ≠ [] ∧ allDigits ds = true ∧ digitsValue 0 ds < 2 ^ 63 ∧
        z = (digitsValue 0 ds : Int) :=
  ParseInt_plain _ ds z rfl

theorem ParseInt_unsigned (c : Char) (cs : Str) (z : Int) (h1 : c ≠ '+') (h2 : c ≠ '-') :
    ParseInt (c :: cs) = .ok z ↔
      allDigits (c :: cs) = true ∧ digitsValue 0 (c :: cs) < 2 ^ 63 ∧
        z = (digitsValue 0 (c :: cs) : Int) := by
  have hb : ParseInt (c :: cs) = ParseInt ('+' :: c :: cs) := by
    have hpm : ('+' : Char) ≠ '-' := by decide
    simp [ParseInt, h1, h2, hpm]
  rw [ParseInt_plain _ (c :: cs) z hb]
  simp

theorem ParseInt_ok_iff_valid (s : Str) : (∃ z, ParseInt s = .ok z) ↔ validInt64 s = true := by
  cases s with
  | nil => simp [ParseInt, validInt64]
  | cons c cs =>
    by_cases hm : c = '-'
    · subst hm
      simp only [ParseInt_minus, validInt64, Bool.and_eq_true, decide_eq_true_eq]
      constructor
      · rintro ⟨z, h1, h2, h3, _⟩
        exact ⟨⟨by simpa using h1, h2⟩, h3⟩
      · rintro ⟨⟨h1, h2⟩, h3⟩
        exact ⟨_, by simpa using h1, h2, h3, rfl⟩
    · by_cases hp : c = '+'
      · subst hp
        simp only [ParseInt_plus, validInt64, Bool.and_eq_true, decide_eq_true_eq]
        constructor
        · rintro ⟨z, h1, h2, h3, _⟩
          exact ⟨⟨by simpa using h1, h2⟩, h3⟩
        · rintro ⟨⟨h1, h2⟩, h3⟩
          exact ⟨_, by simpa using h1, h2, h3, rfl⟩
      · simp only [ParseInt_unsigned c cs _ hp hm]
        have hv : validInt64 (c :: cs) =
            (allDigits (c :: cs) && decide (digitsValue 0 (c :: cs) < 2 ^ 63)) := by
          unfold validInt64
          split
          · rename_i h; cases h
          · rename_i h; cases h; exact absurd rfl hm
          · rename_i h; cases h; exact absurd rfl hp
          · rfl
        rw [hv]
        simp only [Bool.and_eq_true, decide_eq_true_eq]
        constructor
        · rintro ⟨z, h1, h2, _⟩
          exact ⟨h1, h2⟩
        · rintro ⟨h1, h2⟩
          exact ⟨_, h1, h2, rfl⟩

theorem ParseInt_range (s : Str) (z : Int) (h : ParseInt s = .ok z) :
    -(2 : Int) ^ 63 ≤ z ∧ z < 2 ^ 63 := by
  cases s with
  | nil => simp [ParseInt] at h
  | cons c cs =>
    by_cases hm : c = '-'
    · subst hm
      obtain ⟨_, _, h3, h4⟩ := (ParseInt_minus cs z).1 h
      subst h4
      constructor <;> omega
    · by_cases hp : c = '+'
      · subst hp
        obtain ⟨_, _, h3, h4⟩ := (ParseInt_plus cs z).1 h
        subst h4
        constructor <;> omega
      · obtain ⟨_, h3, h4⟩ := (ParseInt_unsigned c cs z hp hm).1 h
        subst h4
        constructor <;> omega

theorem digitChar_spec (d : Nat) (h : d < 10) :
    ('0' ≤ digitChar d ∧ digitChar d ≤ '9') ∧ (digitChar d).toNat - '0'.toNat = d := by
  unfold digitChar
  interval_cases d <;> decide

theorem digit_not_special (c : Char) (h : '0' ≤ c ∧ c ≤ '9') :
    c ≠ '\n' ∧ c ≠ ':' ∧ c ≠ '+' ∧ c ≠ '-' := by
  refine ⟨?_, ?_, ?_, ?_⟩ <;> rintro rfl <;> revert h <;> decide

theorem allDigits_not_mem (s : Str) (h : allDigits s = true) : '\n' ∉ s ∧ ':' ∉ s := by
  induction s with
  | nil => simp
  | cons c cs ih =>
    obtain ⟨hc, hcs⟩ := (allDigits_cons c cs).1 h
    obtain ⟨h1, h2, _, _⟩ := digit_not_special c hc
    obtain ⟨i1, i2⟩ := ih hcs
    constructor
    · simp [h1.symm, i1]
    · simp [h2.symm, i2]

theorem allDigits_append (a b : Str) :
    allDigits (a ++ b) = true ↔ allDigits a = true ∧ allDigits b = true := by
  simp [allDigits, List.all_append]

/-- The digits written by `formatUintAux` are a non-empty digit string that denotes
`n`. -/
theorem formatUintAux_spec (fuel n : Nat) (acc : Str) (h : n < fuel) :
    ∃ ds, formatUintAux fuel n acc = ds ++ acc ∧ ds ≠ [] ∧ allDigits ds = true ∧
      ∀ m, digitsValue m ds = m * 10 ^ ds.length + n := by
  induction fuel generalizing n acc with
  | zero => omega
  | succ fuel ih =>
    unfold formatUintAux
    by_cases hn : n < 10
    · rw [if_pos hn]
      obtain ⟨h1, h2⟩ := digitChar_spec n hn
      refine ⟨[digitChar n], rfl, by simp, ?_, ?_⟩
      · simp [allDigits, h1]
      · intro m
        simp only [digitsValue, List.foldl_cons, List.foldl_nil, h2, List.length_singleton,
          pow_one]
    · rw [if_neg hn]
      obtain ⟨ds, e, hne, hall, hval⟩ :=
        ih (n / 10) (digitChar (n % 10) :: acc) (by omega)
      obtain ⟨h1, h2⟩ := digitChar_spec (n % 10) (Nat.mod_lt _ (by decide))
      refine ⟨ds ++ [digitChar (n % 10)], by rw [e]; simp, by simp, ?_, ?_⟩
      · rw [allDigits_append]
        exact ⟨hall, by simp [allDigits, h1]⟩
      · intro m
        rw [digitsValue_append, hval m]
        simp only [digitsValue, List.foldl_cons, List.foldl_nil, h2, List.length_append,
          List.length_singleton, pow_succ]
        have := Nat.div_add_mod n 10
        nlinarith [this]

theorem formatUint_spec (n : Nat) :
    formatUint n ≠ [] ∧ allDigits (formatUint n) = true ∧ digitsValue 0 (formatUint n) = n := by
  obtain ⟨ds, e, hne, hall, hval⟩ := formatUintAux_spec (n + 1) n [] (by omega)
  have e2 : formatUint n = ds := by simpa [formatUint] using e
  rw [e2]
  exact ⟨hne, hall, by simpa using hval 0⟩

theorem ParseInt_formatUint (n : Nat) (h : n < 2 ^ 63) :
    ParseInt (formatUint n) = .ok (n : Int) := by
  obtain ⟨hne, hall, hval⟩ := formatUint_spec n
  cases hs : formatUint n with
  | nil => exact absurd hs hne
  | cons c cs =>
    rw [hs] at hall hval
    obtain ⟨_, _, hp, hm⟩ := digit_not_special c ((allDigits_cons c cs).1 hall).1
    rw [ParseInt_unsigned c cs _ hp hm, hval]
    exact ⟨hall, h, rfl⟩

theorem ParseInt_formatInt (z : Int) (h1 : -(2 : Int) ^ 63 ≤ z) (h2 : z < 2 ^ 63) :
    ParseInt (formatInt z) = .ok z := by
  obtain ⟨hne, hall, hval⟩ := formatUint_spec z.natAbs
  unfold formatInt
  by_cases hz : z < 0
  · rw [if_pos hz, ParseInt_minus, hval]
    exact ⟨hne, hall, by omega, by omega⟩
  · rw [if_neg hz, ParseInt_formatUint _ (by omega)]
    congr 1
    omega

theorem formatInt_not_mem (z : Int) : '\n' ∉ formatInt z ∧ ':' ∉ formatInt z := by
  obtain ⟨_, hall, _⟩ := formatUint_spec z.natAbs
  obtain ⟨h1, h2⟩ := allDigits_not_mem _ hall
  unfold formatInt
  split_ifs
  · constructor
    · simp only [List.mem_cons, not_or]
      exact ⟨by decide, h1⟩
    · simp only [List.mem_cons, not_or]
      exact ⟨by decide, h2⟩
  · exact ⟨h1, h2⟩

theorem formatInt_natCast (n : Nat) : formatInt (n : Int) = formatUint n := by
  unfold formatInt
  rw [if_neg (by omega)]
  simp

theorem msDuration_eq (ms : Int) (h1 : -9223372036854 ≤ ms) (h2 : ms ≤ 9223372036854) :
    msDuration ms = 1000000 * ms := by
  unfold msDuration wrapInt64 Millisecond
  omega

/-! ## Decomposition of a parse at a directive line -/

theorem flushFinal_append (cmds : List Command) (out : List Command × Str) :
    flushFinal (cmds ++ out.1, out.2) = cmds ++ flushFinal out := by
  unfold flushFinal
  split_ifs <;> simp

theorem NewScript_ok_iff_parseLines (name b : Str) (s : Script) :
    NewScript name b = .ok s ↔
      s.Name = name ∧ s.TypingDelay = Millisecond * 25 ∧
        parseLines (Split '\n' b) = some s.Commands := by
  rw [NewScript_eq_ok_iff]
  have h := scriptLoop_render (Split '\n' b) 0 [] [] (by simp)
  simp only [unlines, List.nil_append] at h
  unfold parseLines
  rw [h]
  cases render (segments (Split '\n' b)) <;> simp

theorem parseLines_eq_render (ls : List Str) : parseLines ls = render (segments ls) := by
  have h := scriptLoop_render ls 0 [] [] (by simp)
  simp only [unlines, List.nil_append] at h
  unfold parseLines
  rw [h]
  cases render (segments ls) <;> simp

theorem scriptLoop_index (ls : List Str) (i j : Nat) (cmds : List Command) (cur : Str)
    (out : List Command × Str) (h : scriptLoop i cmds cur ls = .ok out) :
    scriptLoop j cmds cur ls = .ok out := by
  induction ls generalizing i j cmds cur with
  | nil => simpa [scriptLoop] using h
  | cons line rest ih =>
    rcases line_cases line with h1 | h1 | h1
    · subst h1
      rw [scriptLoop_blank] at h ⊢
      exact ih _ _ _ _ h
    · rw [scriptLoop_directive _ _ _ _ _ h1] at h ⊢
      cases hc : NewControlCommand (line.drop 2) with
      | error err => simp [hc] at h
      | ok ctrl =>
        rw [hc] at h
        exact ih _ _ _ _ h
    · rw [scriptLoop_literal _ _ _ _ _ h1] at h ⊢
      exact ih _ _ _ _ h

/-- A successful run of the loop over `pre ++ d :: post`, with `d` a directive line,
splits into the run over `pre`, the flush, the directive's command and the run
over `post` from an empty state. -/
theorem scriptLoop_split_directive (pre post : List Str) (d : Str) (i : Nat)
    (cmds : List Command) (cur : Str) (out : List Command × Str)
    (hd : isDirective d = true) (h : scriptLoop i cmds cur (pre ++ d :: post) = .ok out) :
    ∃ A u c out1, scriptLoop i cmds cur pre = .ok (A, u) ∧
      NewControlCommand (d.drop 2) = .ok c ∧
      scriptLoop 0 [] [] post = .ok out1 ∧
      out = (flushMid A u ++ c :: out1.1, out1.2) := by
  rw [scriptLoop_append] at h
  cases hp : scriptLoop i cmds cur pre with
  | error e => simp [hp] at h
  | ok o =>
    obtain ⟨A, u⟩ := o
    rw [hp] at h
    simp only [] at h
    rw [scriptLoop_directive _ _ _ _ _ hd] at h
    cases hc : NewControlCommand (d.drop 2) with
    | error err => simp [hc] at h
    | ok c =>
      rw [hc] at h
      simp only [] at h
      rw [scriptLoop_cmds] at h
      cases hq : scriptLoop (i + pre.length + 1) [] [] post with
      | error e => simp [hq] at h
      | ok out1 =>
        rw [hq] at h
        simp only [Except.ok.injEq] at h
        refine ⟨A, u, c, out1, rfl, rfl, scriptLoop_index _ _ _ _ _ _ hq, ?_⟩
        rw [← h]
        simp

theorem parseLines_split_directive (pre post : List Str) (d : Str) (cs : List Command)
    (hd : isDirective d = true) (h : parseLines (pre ++ d :: post) = some cs) :
    ∃ A u c B, scriptLoop 0 [] [] pre = .ok (A, u) ∧
      NewControlCommand (d.drop 2) = .ok c ∧ parseLines post = some B ∧
      cs = flushMid A u ++ c :: B := by
  unfold parseLines at h
  cases hl : scriptLoop 0 [] [] (pre ++ d :: post) with
  | error e => simp [hl, Except.toOption] at h
  | ok out =>
    rw [hl] at h
    simp only [Except.toOption, Option.map_some', Option.some.injEq] at h
    obtain ⟨A, u, c, out1, h1, h2, h3, h4⟩ :=
      scriptLoop_split_directive pre post d 0 [] [] out hd hl
    refine ⟨A, u, c, flushFinal out1, h1, h2, ?_, ?_⟩
    · simp [parseLines, h3, Except.toOption]
    · rw [← h, h4]
      have := flushFinal_append (flushMid A u ++ [c]) out1
      simpa using this

/-! ## Directives -/

theorem isDirective_hash_dollar (x : Str) : isDirective ('#' :: '$' :: x) = true := by
  simp [isDirective, HasPrefix, ControlPrefix]

theorem NewControlCommand_wait (rest : Str) :
    NewControlCommand ("wait".toList ++ ':' :: rest) = NewWait (Split ':' rest) := by
  unfold NewControlCommand
  rw [Split_append_sep ':' "wait".toList rest (by decide)]
  simp only [List.headD_cons, List.tail_cons]
  rw [if_neg (by decide), if_pos trivial]

theorem NewControlCommand_delay (rest : Str) :
    NewControlCommand ("delay".toList ++ ':' :: rest) = NewDelay (Split ':' rest) := by
  unfold NewControlCommand
  rw [Split_append_sep ':' "delay".toList rest (by decide)]
  simp only [List.headD_cons, List.tail_cons]
  rw [if_pos trivial]

/-- Every command `NewControlCommand` returns is a `Wait` or a `Delay` of the
duration computed from the integer read from the first argument. -/
theorem NewControlCommand_ok (cmd : Str) (c : Command) (h : NewControlCommand cmd = .ok c) :
    ∃ ms, ParseInt ((Split ':' cmd).tail.headD []) = .ok ms ∧
      (c = .Wait (msDuration ms) ∨ c = .Delay (msDuration ms)) := by
  unfold NewControlCommand at h
  dsimp only at h
  split_ifs at h with h1 h2
  · unfold NewDelay at h
    cases ht : (Split ':' cmd).tail with
    | nil => simp [ht] at h
    | cons a rest =>
      rw [ht] at h
      simp only [] at h
      cases hp : ParseInt a with
      | error e => simp [hp] at h
      | ok ms =>
        rw [hp] at h
        simp only [Except.ok.injEq] at h
        exact ⟨ms, by simp [hp], Or.inr h.symm⟩
  · unfold NewWait at h
    cases ht : (Split ':' cmd).tail with
    | nil => simp [ht] at h
    | cons a rest =>
      rw [ht] at h
      simp only [] at h
      cases hp : ParseInt a with
      | error e => simp [hp] at h
      | ok ms =>
        rw [hp] at h
        simp only [Except.ok.injEq] at h
        exact ⟨ms, by simp [hp], Or.inl h.symm⟩

theorem NewControlCommand_not_shell (cmd : Str) (c : Command)
    (h : NewControlCommand cmd = .ok c) : c.isShell = false := by
  obtain ⟨ms, _, h1 | h1⟩ := NewControlCommand_ok cmd c h <;> subst h1 <;> rfl

theorem scriptLoop_ends_directive (pre0 : List Str) (p : Str) (i : Nat)
    (cmds : List Command) (cur : Str) (A : List Command) (u : Str)
    (hp : isDirective p = true) (h : scriptLoop i cmds cur (pre0 ++ [p]) = .ok (A, u)) :
    u = [] := by
  obtain ⟨A0, u0, c, out1, _, _, h3, h4⟩ :=
    scriptLoop_split_directive pre0 [] p i cmds cur (A, u) hp h
  simp only [scriptLoop, Except.ok.injEq] at h3
  subst h3
  simp only [Prod.mk.injEq] at h4
  exact h4.2

/-! ## Flush before a directive -/

/-- C1, as amended: a `Shell` command flushed because a directive line follows
holds the accumulated literal lines each followed by a newline, the last newline
included; and the scenario input parses to
`[Shell "echo hi\n", Wait 50ms, Delay 0, Shell "ls"]`. -/
theorem NewScript_flush_before_directive :
    (∀ (name b : Str) (s : Script) (pre block post : List Str) (d : Str),
      Split '\n' b = pre ++ block ++ d :: post →
      (pre = [] ∨ ∃ pre0 p, pre = pre0 ++ [p] ∧ isDirective p = true) →
      (∀ l ∈ block, isDirective l = false) →
      (∃ l ∈ block, l ≠ []) →
      isDirective d = true →
      NewScript name b = .ok s →
      ∃ A c B, parseLines pre = some A ∧ NewControlCommand (d.drop 2) = .ok c ∧
        parseLines post = some B ∧
        s.Commands =
          A ++ .Shell (unlines (block.filter (fun l => decide (l ≠ [])))) :: c :: B) ∧
    (∀ name : Str, NewScript name "echo hi\n#$wait:50\n#$delay:0\nls\n".toList =
      .ok ⟨name, [.Shell "echo hi\n".toList, .Wait 50000000, .Delay 0, .Shell "ls".toList],
        25000000⟩) := by
  refine ⟨?_, fun name => rfl⟩
  intro name b s pre block post d hb hpre hblock hne hd hs
  obtain ⟨_, _, hc⟩ := (NewScript_ok_iff_parseLines name b s).1 hs
  rw [hb] at hc
  obtain ⟨A, u, c, B, h1, h2, h3, h4⟩ :=
    parseLines_split_directive (pre ++ block) post d s.Commands hd hc
  rw [scriptLoop_append] at h1
  cases hp : scriptLoop 0 [] [] pre with
  | error e => simp [hp] at h1
  | ok o =>
    obtain ⟨A0, u0⟩ := o
    have hu0 : u0 = [] := by
      rcases hpre with rfl | ⟨pre0, p, rfl, hpd⟩
      · simp only [scriptLoop, Except.ok.injEq, Prod.mk.injEq] at hp
        exact hp.2.symm
      · exact scriptLoop_ends_directive pre0 p 0 [] [] A0 u0 hpd hp
    subst hu0
    rw [hp] at h1
    simp only [] at h1
    rw [scriptLoop_noDirective block hblock] at h1
    simp only [Except.ok.injEq, Prod.mk.injEq, List.nil_append] at h1
    obtain ⟨rfl, rfl⟩ := h1
    have hne2 : unlines (block.filter (fun l => decide (l ≠ []))) ≠ [] := by
      rw [Ne, unlines_eq_nil]
      obtain ⟨l, hl, hl2⟩ := hne
      intro hnil
      have : l ∈ block.filter (fun l => decide (l ≠ [])) := by
        simp [List.mem_filter, hl, hl2]
      rw [hnil] at this
      simp at this
    refine ⟨A0, c, B, ?_, h2, h3, ?_⟩
    · simp [parseLines, hp, Except.toOption, flushFinal]
    · rw [h4]
      unfold flushMid NewShell
      rw [if_pos hne2, List.append_assoc]
      rfl

/-- C1, witness: the scenario input, whose first line is flushed by `#$wait:50`. -/
theorem NewScript_flush_before_directive_witness :
    ∃ A c B, parseLines [] = some A ∧
      NewControlCommand ("#$wait:50".toList.drop 2) = .ok c ∧
      parseLines ["#$delay:0".toList, "ls".toList, []] = some B ∧
      (⟨"demo".toList, [.Shell "echo hi\n".toList, .Wait 50000000, .Delay 0,
          .Shell "ls".toList], 25000000⟩ : Script).Commands =
        A ++ .Shell (unlines (["echo hi".toList].filter (fun l => decide (l ≠ [])))) ::
          c :: B :=
  NewScript_flush_before_directive.1 "demo".toList
    "echo hi\n#$wait:50\n#$delay:0\nls\n".toList _ [] ["echo hi".toList]
    ["#$delay:0".toList, "ls".toList, []] "#$wait:50".toList (by decide) (Or.inl rfl)
    (by decide) (by decide) (by decide) rfl

/-- C1, counterexample: on the scenario input the first command is not
`Shell "echo hi"`; the flushed text keeps its final newline. -/
theorem NewScript_scenario_keeps_newline :
    NewScript "demo".toList "echo hi\n#$wait:50\n#$delay:0\nls\n".toList ≠
      .ok ⟨"demo".toList,
        [.Shell "echo hi".toList, .Wait 50000000, .Delay 0, .Shell "ls".toList], 25000000⟩ := by
  decide

/-! ## Directive isolation -/

theorem NewControlCommand_wait_formatInt (N : Int) (h1 : -(2 : Int) ^ 63 ≤ N)
    (h2 : N < 2 ^ 63) :
    NewControlCommand ("wait".toList ++ ':' :: formatInt N) = .ok (.Wait (msDuration N)) := by
  rw [NewControlCommand_wait, Split_of_not_mem _ _ (formatInt_not_mem N).2]
  simp only [NewWait, ParseInt_formatInt N h1 h2]

theorem NewControlCommand_delay_formatInt (N : Int) (h1 : -(2 : Int) ^ 63 ≤ N)
    (h2 : N < 2 ^ 63) :
    NewControlCommand ("delay".toList ++ ':' :: formatInt N) = .ok (.Delay (msDuration N)) := by
  rw [NewControlCommand_delay, Split_of_not_mem _ _ (formatInt_not_mem N).2]
  simp only [NewDelay, ParseInt_formatInt N h1 h2]

/-- C2, as amended: for every integer `N` with `|N| ≤ 9223372036854` and every
script that parses, a line `#$wait:N` (resp. `#$delay:N`) gives exactly one
command, a `Wait` (resp. `Delay`) of exactly `N` milliseconds; the commands
before it are those built from the earlier lines alone and the commands after it
those built from the later lines alone, so the line enters no `Shell` text. -/
theorem directive_isolation (name b : Str) (s : Script) (pre post : List Str) (N : Int)
    (hlo : -9223372036854 ≤ N) (hhi : N ≤ 9223372036854)
    (hs : NewScript name b = .ok s) :
    (Split '\n' b = pre ++ ("#$wait:".toList ++ formatInt N) :: post →
      ∃ A cur B, scriptLoop 0 [] [] pre = .ok (A, cur) ∧ parseLines post = some B ∧
        s.Commands = flushMid A cur ++ .Wait (1000000 * N) :: B) ∧
    (Split '\n' b = pre ++ ("#$delay:".toList ++ formatInt N) :: post →
      ∃ A cur B, scriptLoop 0 [] [] pre = .ok (A, cur) ∧ parseLines post = some B ∧
        s.Commands = flushMid A cur ++ .Delay (1000000 * N) :: B) := by
  obtain ⟨_, _, hc⟩ := (NewScript_ok_iff_parseLines name b s).1 hs
  have hd := msDuration_eq N hlo hhi
  constructor
  · intro hb
    rw [hb] at hc
    have e : "#$wait:".toList ++ formatInt N =
        '#' :: '$' :: ("wait".toList ++ ':' :: formatInt N) := rfl
    rw [e] at hc
    obtain ⟨A, u, c, B, h1, h2, h3, h4⟩ :=
      parseLines_split_directive pre post _ s.Commands (isDirective_hash_dollar _) hc
    simp only [List.drop_succ_cons, List.drop_zero] at h2
    rw [NewControlCommand_wait_formatInt N (by omega) (by omega), hd] at h2
    cases h2
    exact ⟨A, u, B, h1, h3, h4⟩
  · intro hb
    rw [hb] at hc
    have e : "#$delay:".toList ++ formatInt N =
        '#' :: '$' :: ("delay".toList ++ ':' :: formatInt N) := rfl
    rw [e] at hc
    obtain ⟨A, u, c, B, h1, h2, h3, h4⟩ :=
      parseLines_split_directive pre post _ s.Commands (isDirective_hash_dollar _) hc
    simp only [List.drop_succ_cons, List.drop_zero] at h2
    rw [NewControlCommand_delay_formatInt N (by omega) (by omega), hd] at h2
    cases h2
    exact ⟨A, u, B, h1, h3, h4⟩

/-- C2, witness: `#$wait:-7` between two literal lines. -/
theorem directive_isolation_witness :
    ∃ A cur B, scriptLoop 0 [] [] ["ls".toList] = .ok (A, cur) ∧
      parseLines ["pwd".toList] = some B ∧
      (⟨"demo".toList, [.Shell "ls\n".toList, .Wait (-7000000), .Shell "pwd".toList],
          25000000⟩ : Script).Commands = flushMid A cur ++ .Wait (1000000 * (-7)) :: B :=
  (directive_isolation "demo".toList "ls\n#$wait:-7\npwd".toList _ ["ls".toList]
    ["pwd".toList] (-7) (by decide) (by decide) rfl).1 (by decide)

/-- C2, counterexample: `N = 9223372036855` is an integer and `#$wait:N` is accepted,
but the `Wait` built from it is not `N` milliseconds: the 64-bit product wraps to
a negative duration. -/
theorem directive_isolation_overflow :
    NewScript "demo".toList ("#$wait:".toList ++ formatInt 9223372036855) =
        .ok ⟨"demo".toList, [.Wait (-9223372036854551616)], 25000000⟩ ∧
      (-9223372036854551616 : Int) ≠ 1000000 * 9223372036855 := by
  decide

/-! ## Fail-fast parsing -/

theorem getElem?_split {α : Type} (l : List α) (k : Nat) (x : α) (h : l[k]? = some x) :
    l = l.take k ++ x :: l.drop (k + 1) ∧ (l.take k).length = k := by
  induction l generalizing k with
  | nil => simp at h
  | cons a rest ih =>
    cases k with
    | zero =>
      simp only [List.getElem?_cons_zero, Option.some.injEq] at h
      subst h
      simp
    | succ k =>
      simp only [List.getElem?_cons_succ] at h
      obtain ⟨h1, h2⟩ := ih k h
      constructor
      · simp only [List.take_succ_cons, List.drop_succ_cons, List.cons_append]
        rw [← h1]
      · simp [h2]

theorem mem_take_getElem? {α : Type} (l : List α) (k : Nat) (x : α) (h : x ∈ l.take k) :
    ∃ j, j < k ∧ l[j]? = some x := by
  induction l generalizing k with
  | nil => simp at h
  | cons a rest ih =>
    cases k with
    | zero => simp at h
    | succ k =>
      simp only [List.take_succ_cons, List.mem_cons] at h
      rcases h with rfl | h
      · exact ⟨0, by omega, by simp⟩
      · obtain ⟨j, hj, hx⟩ := ih k h
        exact ⟨j + 1, by omega, by simpa using hx⟩

theorem getElem?_of_take_eq {α : Type} (l l2 : List α) (n j : Nat) (hj : j < n)
    (h : l2.take n = l.take n) : l2[j]? = l[j]? := by
  have h1 : (l2.take n)[j]? = l2[j]? := by rw [List.getElem?_take, if_pos hj]
  have h2 : (l.take n)[j]? = l[j]? := by rw [List.getElem?_take, if_pos hj]
  rw [← h1, ← h2, h]

theorem NewScript_error_at (name b : Str) (k : Nat) (line : Str) (e : Err)
    (hk : (Split '\n' b)[k]? = some line) (hd : isDirective line = true)
    (he : NewControlCommand (line.drop 2) = .error e)
    (hmin : ∀ j l, j < k → (Split '\n' b)[j]? = some l → isMalformed l = false) :
    NewScript name b = .error ⟨e, k⟩ := by
  obtain ⟨h1, h2⟩ := getElem?_split _ k line hk
  have hpre : ∀ l ∈ (Split '\n' b).take k, isMalformed l = false := by
    intro l hl
    obtain ⟨j, hj, hx⟩ := mem_take_getElem? _ k l hl
    exact hmin j l hj hx
  have := scriptLoop_first_malformed _ ((Split '\n' b).drop (k + 1)) line e hpre hd he 0 [] []
  rw [← h1, h2] at this
  rw [NewScript_eq, this]
  simp

/-- C3: the first malformed directive line, at 0-based index `k` of the split
input, makes `NewScript` return the error of that directive at line `k` and no
script, whatever follows line `k`; `NewScript` succeeds exactly when no prefixed
line is malformed; `#$delay:abc` gives the invalid-argument error and
`#$frobnicate:1` the unknown-command error, both at line 0. -/
theorem NewScript_fail_fast :
    (∀ (name b : Str) (k : Nat) (line : Str) (e : Err),
      (Split '\n' b)[k]? = some line →
      isDirective line = true →
      NewControlCommand (line.drop 2) = .error e →
      (∀ j l, j < k → (Split '\n' b)[j]? = some l → isDirective l = true →
        ∃ c, NewControlCommand (l.drop 2) = .ok c) →
      NewScript name b = .error ⟨e, k⟩ ∧
        ∀ name2 b2 : Str, (Split '\n' b2).take (k + 1) = (Split '\n' b).take (k + 1) →
          NewScript name2 b2 = .error ⟨e, k⟩) ∧
    (∀ name b : Str, (∃ s, NewScript name b = .ok s) ↔
      ∀ l ∈ Split '\n' b, isDirective l = true →
        ∃ c, NewControlCommand (l.drop 2) = .ok c) ∧
    (∀ name : Str, NewScript name "#$delay:abc".toList = .error ⟨.ErrBadArg, 0⟩) ∧
    (∀ name : Str, NewScript name "#$frobnicate:1".toList = .error ⟨.ErrUnknownCmd, 0⟩) := by
  refine ⟨?_, ?_, fun _ => rfl, fun _ => rfl⟩
  · intro name b k line e hk hd he hmin
    have hmin1 : ∀ j l, j < k → (Split '\n' b)[j]? = some l → isMalformed l = false :=
      fun j l hj hl => (isMalformed_false_iff l).2 (hmin j l hj hl)
    refine ⟨NewScript_error_at name b k line e hk hd he hmin1, ?_⟩
    intro name2 b2 htake
    have hget : ∀ j, j < k + 1 → (Split '\n' b2)[j]? = (Split '\n' b)[j]? :=
      fun j hj => getElem?_of_take_eq _ _ (k + 1) j hj htake
    refine NewScript_error_at name2 b2 k line e ?_ hd he ?_
    · rw [hget k (by omega)]
      exact hk
    · intro j l hj hl
      rw [hget j (by omega)] at hl
      exact hmin1 j l hj hl
  · intro name b
    rw [NewScript_eq]
    constructor
    · rintro ⟨s, hs⟩
      cases hl : scriptLoop 0 [] [] (Split '\n' b) with
      | error e => simp [hl] at hs
      | ok out =>
        intro l hmem
        exact (isMalformed_false_iff l).1 (wellFormed_of_scriptLoop_ok _ _ _ _ _ hl l hmem)
    · intro h
      obtain ⟨out, hout⟩ := scriptLoop_ok_of_wellFormed (Split '\n' b)
        (fun l hl => (isMalformed_false_iff l).2 (h l hl)) 0 [] []
      rw [hout]
      exact ⟨_, rfl⟩

/-- C3, witness: the first malformed directive is on line 2; the unknown directive
on line 3 is never reached. -/
theorem NewScript_fail_fast_witness :
    NewScript "demo".toList "ls\n\n#$wait:x\n#$nope".toList = .error ⟨.ErrBadArg, 2⟩ :=
  (NewScript_fail_fast.1 "demo".toList "ls\n\n#$wait:x\n#$nope".toList 2 "#$wait:x".toList
    .ErrBadArg (by decide) (by decide) (by decide)
    (by
      intro j l hj hl hd
      have hj2 : j = 0 ∨ j = 1 := by omega
      rcases hj2 with rfl | rfl
      · have h0 : (Split '\n' "ls\n\n#$wait:x\n#$nope".toList)[0]? = some "ls".toList := by
          decide
        rw [h0] at hl
        cases hl
        exact absurd hd (by decide)
      · have h1 : (Split '\n' "ls\n\n#$wait:x\n#$nope".toList)[1]? = some [] := by decide
        rw [h1] at hl
        cases hl
        exact absurd hd (by decide))).1

/-! ## The control command constructor -/

theorem ParseInt_cases (a : Str) :
    (validInt64 a = true ∧ ∃ ms, ParseInt a = .ok ms) ∨
      (validInt64 a = false ∧ ∃ e, ParseInt a = .error e) := by
  cases hp : ParseInt a with
  | ok ms => exact Or.inl ⟨(ParseInt_ok_iff_valid a).1 ⟨ms, hp⟩, ms, rfl⟩
  | error e =>
    refine Or.inr ⟨?_, e, rfl⟩
    cases hv : validInt64 a with
    | false => rfl
    | true =>
      obtain ⟨z, hz⟩ := (ParseInt_ok_iff_valid a).2 hv
      rw [hp] at hz
      cases hz

theorem NewControlCommand_eq (cmd : Str) :
    NewControlCommand cmd =
      if (Split ':' cmd).headD [] = "delay".toList then NewDelay (Split ':' cmd).tail
      else if (Split ':' cmd).headD [] = "wait".toList then NewWait (Split ':' cmd).tail
      else .error .ErrUnknownCmd := rfl

/-- C4: with `name` the first token of the text after the prefix split on `:` and
`args` the remaining tokens, `NewControlCommand` returns `ErrNoArgs` iff `name`
is `delay` or `wait` and `args` is empty, `ErrBadArg` iff `name` is `delay` or
`wait` and the first argument is not a valid base-10 signed 64-bit integer,
`ErrUnknownCmd` iff `name` is neither; otherwise it succeeds, with a `Delay` for
`delay` and a `Wait` for `wait`, both read from the first argument in the same way. -/
theorem NewControlCommand_characterised (cmd : Str) :
    (NewControlCommand cmd = .error .ErrNoArgs ↔
      ((Split ':' cmd).headD [] = "delay".toList ∨ (Split ':' cmd).headD [] = "wait".toList) ∧
        (Split ':' cmd).tail = []) ∧
    (NewControlCommand cmd = .error .ErrBadArg ↔
      ((Split ':' cmd).headD [] = "delay".toList ∨ (Split ':' cmd).headD [] = "wait".toList) ∧
        ∃ a rest, (Split ':' cmd).tail = a :: rest ∧ validInt64 a = false) ∧
    (NewControlCommand cmd = .error .ErrUnknownCmd ↔
      (Split ':' cmd).headD [] ≠ "delay".toList ∧ (Split ':' cmd).headD [] ≠ "wait".toList) ∧
    (∀ a rest, (Split ':' cmd).tail = a :: rest → validInt64 a = true →
      ∃ ms, ParseInt a = .ok ms ∧
        ((Split ':' cmd).headD [] = "delay".toList →
          NewControlCommand cmd = .ok (.Delay (msDuration ms))) ∧
        ((Split ':' cmd).headD [] = "wait".toList →
          NewControlCommand cmd = .ok (.Wait (msDuration ms)))) := by
  have hdw : "delay".toList ≠ "wait".toList := by decide
  rw [NewControlCommand_eq]
  generalize (Split ':' cmd).headD [] = name
  generalize (Split ':' cmd).tail = args
  by_cases h1 : name = "delay".toList
  · subst h1
    rw [if_pos rfl]
    cases args with
    | nil => simp [NewDelay]
    | cons a rest =>
      rcases ParseInt_cases a with ⟨hv, ms, hp⟩ | ⟨hv, e, hp⟩
      · simp [NewDelay, hp, hv, hdw]
      · simp [NewDelay, hp, hv]
  · rw [if_neg h1]
    by_cases h2 : name = "wait".toList
    · subst h2
      rw [if_pos rfl]
      cases args with
      | nil => simp [NewWait]
      | cons a rest =>
        rcases ParseInt_cases a with ⟨hv, ms, hp⟩ | ⟨hv, e, hp⟩
        · simp [NewWait, hp, hv, hdw.symm]
        · simp [NewWait, hp, hv]
    · rw [if_neg h2]
      refine ⟨⟨fun h => (by cases h), fun h => (h.1.elim h1 h2).elim⟩,
        ⟨fun h => (by cases h), fun h => (h.1.elim h1 h2).elim⟩,
        ⟨fun _ => ⟨h1, h2⟩, fun _ => rfl⟩, ?_⟩
      intro a rest _ hv
      rcases ParseInt_cases a with ⟨_, ms, hp⟩ | ⟨hv2, _⟩
      · exact ⟨ms, hp, fun h => absurd h h1, fun h => absurd h h2⟩
      · rw [hv] at hv2
        cases hv2

/-- C4, witness: `delay:-12:x` has a valid first argument and gives a `Delay`. -/
theorem NewControlCommand_characterised_witness :
    ∃ ms, ParseInt "-12".toList = .ok ms ∧
      NewControlCommand "delay:-12:x".toList = .ok (.Delay (msDuration ms)) :=
  match (NewControlCommand_characterised "delay:-12:x".toList).2.2.2 "-12".toList
    ["x".toList] (by decide) (by decide) with
  | ⟨ms, h1, h2, _⟩ => ⟨ms, h1, h2 (by decide)⟩

/-! ## Blank lines and literal blocks -/

theorem parseLines_filter (ls : List Str) :
    parseLines (ls.filter (fun l => decide (l ≠ []))) = parseLines ls := by
  unfold parseLines
  rw [scriptLoop_filter ls 0 0 [] []]

/-- C5: a blank line is skipped entirely.  Two inputs whose lines agree once the
empty lines are removed (that is, inputs that differ by inserting or removing
empty lines anywhere) parse to the same script whenever one of them parses. -/
theorem blank_lines_skipped (name b b2 : Str) (s : Script)
    (hsame : (Split '\n' b).filter (fun l => decide (l ≠ [])) =
      (Split '\n' b2).filter (fun l => decide (l ≠ [])))
    (hs : NewScript name b = .ok s) :
    NewScript name b2 = .ok s := by
  rw [NewScript_ok_iff_parseLines] at hs ⊢
  obtain ⟨h1, h2, h3⟩ := hs
  refine ⟨h1, h2, ?_⟩
  rw [← parseLines_filter, ← hsame, parseLines_filter]
  exact h3

/-- C5, witness: blank lines at the start, inside a literal block, next to a
directive and at the end. -/
theorem blank_lines_skipped_witness :
    NewScript "demo".toList "\na\n\nb\n\n#$wait:1\n\nc\n\n".toList =
      .ok ⟨"demo".toList, [.Shell "a\nb\n".toList, .Wait 1000000, .Shell "c".toList],
        25000000⟩ :=
  blank_lines_skipped "demo".toList "a\nb\n#$wait:1\nc".toList
    "\na\n\nb\n\n#$wait:1\n\nc\n\n".toList _ (by decide) rfl

theorem filter_nonblank_of_literal (ls : List Str) (h : ∀ l ∈ ls, isLiteral l = true) :
    ls.filter (fun l => decide (l ≠ [])) = ls := by
  rw [List.filter_eq_self]
  intro l hl
  simpa using ((isLiteral_iff l).1 (h l hl)).1

/-- A non-empty list of literal lines, blank lines among them or not, parses to one
`Shell` command holding the literal lines joined by newlines. -/
theorem parseLines_literal (ls : List Str) (hne : ls ≠ [])
    (h : ∀ l ∈ ls, isLiteral l = true) (ls2 : List Str)
    (h2 : ls2.filter (fun l => decide (l ≠ [])) = ls) :
    parseLines ls2 = some [.Shell (joinLines ls)] := by
  rw [← parseLines_filter, h2]
  unfold parseLines
  rw [scriptLoop_noDirective ls (fun l hl => ((isLiteral_iff l).1 (h l hl)).2),
    filter_nonblank_of_literal ls h]
  have hu : unlines ls ≠ [] := by rwa [Ne, unlines_eq_nil]
  simp only [Except.toOption, Option.map_some', flushFinal, List.nil_append, ne_eq, hu,
    not_false_eq_true, if_true, NewShell]
  rw [unlines_eq_joinLines ls hne, List.dropLast_concat]

theorem NewScript_literal (name b : Str) (ls : List Str) (hne : ls ≠ [])
    (h : ∀ l ∈ ls, isLiteral l = true)
    (h2 : (Split '\n' b).filter (fun l => decide (l ≠ [])) = ls) :
    NewScript name b = .ok ⟨name, [.Shell (joinLines ls)], 25000000⟩ := by
  rw [NewScript_ok_iff_parseLines]
  exact ⟨rfl, rfl, parseLines_literal ls hne h _ h2⟩

/-- C6, as amended: for every two blocks of literal lines, parsing them with a
blank line in between yields the same single `Shell` command as parsing them
without it; the blank line changes neither the command boundary nor the
character content. -/
theorem blank_line_between_blocks (name b1 b2 : Str) (block1 block2 : List Str)
    (hne : block1 ≠ [])
    (hlit1 : ∀ l ∈ block1, isLiteral l = true) (hlit2 : ∀ l ∈ block2, isLiteral l = true)
    (h1 : Split '\n' b1 = block1 ++ [] :: block2) (h2 : Split '\n' b2 = block1 ++ block2) :
    NewScript name b1 = .ok ⟨name, [.Shell (joinLines (block1 ++ block2))], 25000000⟩ ∧
      NewScript name b2 = .ok ⟨name, [.Shell (joinLines (block1 ++ block2))], 25000000⟩ := by
  have hlit : ∀ l ∈ block1 ++ block2, isLiteral l = true := by
    intro l hl
    rcases List.mem_append.1 hl with hl | hl
    · exact hlit1 l hl
    · exact hlit2 l hl
  have hne2 : block1 ++ block2 ≠ [] := by simp [hne]
  have hf := filter_nonblank_of_literal _ hlit
  constructor
  · refine NewScript_literal name b1 _ hne2 hlit ?_
    rw [h1]
    rw [List.filter_append] at hf ⊢
    simpa [List.filter_cons] using hf
  · refine NewScript_literal name b2 _ hne2 hlit ?_
    rw [h2]
    exact hf

/-- C6, witness: `a`, a blank line, `b` against `a`, `b`. -/
theorem blank_line_between_blocks_witness :
    NewScript "demo".toList "a\n\nb".toList =
        .ok ⟨"demo".toList, [.Shell (joinLines (["a".toList] ++ ["b".toList]))], 25000000⟩ ∧
      NewScript "demo".toList "a\nb".toList =
        .ok ⟨"demo".toList, [.Shell (joinLines (["a".toList] ++ ["b".toList]))], 25000000⟩ :=
  blank_line_between_blocks "demo".toList "a\n\nb".toList "a\nb".toList ["a".toList]
    ["b".toList] (by decide) (by decide) (by decide) (by decide) (by decide)

/-- C6, counterexample: the blocks `a` and `b` with a blank line in between parse to
one `Shell` command, not two. -/
theorem blank_line_is_no_separator :
    NewScript "demo".toList "a\n\nb".toList =
        .ok ⟨"demo".toList, [.Shell "a\nb".toList], 25000000⟩ ∧
      ([Command.Shell "a\nb".toList] : List Command).length ≠ 2 := by
  decide

/-! ## Round trip -/

/-- C7: for a non-empty list of lines, each non-empty, free of newlines and without
the control prefix, the lines joined by newlines parse, with or without one final
newline, to exactly one `Shell` command, whose text followed by a newline is the
concatenation of the lines each followed by a newline. -/
theorem round_trip (name : Str) (ls : List Str) (hne : ls ≠ [])
    (h : ∀ l ∈ ls, l ≠ [] ∧ '\n' ∉ l ∧ HasPrefix l ControlPrefix = false) :
    ∃ t, NewScript name (joinLines ls) = .ok ⟨name, [.Shell t], 25000000⟩ ∧
      NewScript name (joinLines ls ++ ['\n']) = .ok ⟨name, [.Shell t], 25000000⟩ ∧
      t ++ ['\n'] = unlines ls := by
  have hlit : ∀ l ∈ ls, isLiteral l = true :=
    fun l hl => (isLiteral_iff l).2 ⟨(h l hl).1, (h l hl).2.2⟩
  have hnl : ∀ l ∈ ls, '\n' ∉ l := fun l hl => (h l hl).2.1
  refine ⟨joinLines ls, ?_, ?_, (unlines_eq_joinLines ls hne).symm⟩
  · refine NewScript_literal name _ ls hne hlit ?_
    rw [Split_joinLines ls hne hnl]
    exact filter_nonblank_of_literal ls hlit
  · refine NewScript_literal name _ ls hne hlit ?_
    rw [← unlines_eq_joinLines ls hne, Split_joinLines_newline ls hnl, List.filter_append,
      filter_nonblank_of_literal ls hlit]
    simp

/-- C7, witness: two shell lines. -/
theorem round_trip_witness :
    ∃ t, NewScript "demo".toList (joinLines ["echo hi".toList, "ls -l".toList]) =
        .ok ⟨"demo".toList, [.Shell t], 25000000⟩ ∧
      NewScript "demo".toList (joinLines ["echo hi".toList, "ls -l".toList] ++ ['\n']) =
        .ok ⟨"demo".toList, [.Shell t], 25000000⟩ ∧
      t ++ ['\n'] = unlines ["echo hi".toList, "ls -l".toList] :=
  round_trip "demo".toList ["echo hi".toList, "ls -l".toList] (by decide) (by decide)

/-! ## Source order and grouping -/

theorem render_yields (segs : List Segment) (cs : List Command)
    (h : render segs = some cs) : List.Forall₂ Segment.yields segs cs := by
  induction segs generalizing cs with
  | nil =>
    simp only [render, Option.some.injEq] at h
    subst h
    exact List.Forall₂.nil
  | cons seg rest ih =>
    cases seg with
    | text ls =>
      cases rest with
      | nil =>
        simp only [render, Option.some.injEq] at h
        subst h
        exact List.Forall₂.cons (Or.inr rfl) List.Forall₂.nil
      | cons seg2 rest2 =>
        simp only [render] at h
        cases hr : render (seg2 :: rest2) with
        | none => simp [hr] at h
        | some cs2 =>
          rw [hr] at h
          simp only [Option.map_some', Option.some.injEq] at h
          subst h
          exact List.Forall₂.cons (Or.inl rfl) (ih cs2 hr)
    | directive d =>
      simp only [render] at h
      cases hc : NewControlCommand (d.drop 2) with
      | error e => simp [hc] at h
      | ok c =>
        rw [hc] at h
        simp only [] at h
        cases hr : render rest with
        | none => simp [hr] at h
        | some cs2 =>
          rw [hr] at h
          simp only [Option.map_some', Option.some.injEq] at h
          subst h
          exact List.Forall₂.cons hc (ih cs2 hr)

theorem yields_directives (segs : List Segment) (cs : List Command)
    (h : List.Forall₂ Segment.yields segs cs) :
    cs.filter (fun c => !c.isShell) =
      (segs.filterMap Segment.directiveLine).filterMap
        (fun l => (NewControlCommand (l.drop 2)).toOption) := by
  induction h with
  | nil => rfl
  | @cons seg c segs2 cs2 hy _ ih =>
    cases seg with
    | text ls =>
      have hc : c.isShell = true := by
        rcases hy with rfl | rfl <;> rfl
      simp [List.filter_cons, hc, Segment.directiveLine, ih]
    | directive d =>
      have hy2 : NewControlCommand (d.drop 2) = .ok c := hy
      have hc : c.isShell = false := NewControlCommand_not_shell _ c hy2
      simp [List.filter_cons, hc, Segment.directiveLine, hy2, Except.toOption, ih]

theorem yields_length (segs : List Segment) (cs : List Command)
    (h : List.Forall₂ Segment.yields segs cs) :
    cs.length = (segs.filterMap Segment.directiveLine).length +
        (segs.filter Segment.isText).length ∧
      (cs.filter (fun c => !c.isShell)).length =
        (segs.filterMap Segment.directiveLine).length := by
  induction h with
  | nil => simp
  | @cons seg c segs2 cs2 hy _ ih =>
    obtain ⟨ih1, ih2⟩ := ih
    cases seg with
    | text ls =>
      have hc : c.isShell = true := by
        rcases hy with rfl | rfl <;> rfl
      simp only [List.length_cons, ih1, List.filter_cons, hc, Segment.directiveLine,
        Segment.isText, List.filterMap_cons, if_true, Bool.not_true, ih2]
      constructor
      · omega
      · simp [ih2]
    | directive d =>
      have hy2 : NewControlCommand (d.drop 2) = .ok c := hy
      have hc : c.isShell = false := NewControlCommand_not_shell _ c hy2
      simp only [List.length_cons, ih1, List.filter_cons, hc, Segment.directiveLine,
        Segment.isText, List.filterMap_cons, Bool.not_false, if_true, ih2]
      constructor
      · simp; omega
      · simp

theorem segments_directiveLines (ls : List Str) :
    (segments ls).filterMap Segment.directiveLine = ls.filter isDirective := by
  induction ls with
  | nil => rfl
  | cons l rest ih =>
    rcases line_cases l with h | h | h
    · subst h
      rw [segments_blank, ih]
      simp [List.filter_cons, isDirective, HasPrefix, ControlPrefix]
    · rw [segments_directive _ _ h]
      simp [List.filter_cons, h, Segment.directiveLine, ih]
    · have hnd := ((isLiteral_iff l).1 h).2
      rw [segments_literal _ _ h, List.filter_cons, hnd, ← ih]
      cases hs : segments rest with
      | nil => simp [Segment.directiveLine]
      | cons seg more =>
        cases seg <;> simp [Segment.directiveLine]

/-- The segments, flattened, are the non-blank lines in source order. -/
theorem segments_sourceLines (ls : List Str) :
    ((segments ls).map Segment.sourceLines).flatten = ls.filter (fun l => decide (l ≠ [])) := by
  induction ls with
  | nil => rfl
  | cons l rest ih =>
    rcases line_cases l with h | h | h
    · subst h
      rw [segments_blank, ih]
      simp
    · have hne := isDirective_ne_nil l h
      rw [segments_directive _ _ h, List.filter_cons_of_pos (by simpa using hne), ← ih]
      simp [Segment.sourceLines]
    · have hne := ((isLiteral_iff l).1 h).1
      rw [segments_literal _ _ h, List.filter_cons_of_pos (by simpa using hne), ← ih]
      cases hs : segments rest with
      | nil => simp [Segment.sourceLines]
      | cons seg more =>
        cases seg <;> simp [Segment.sourceLines]

/-- C8: for every input that parses, the non-`Shell` commands of the result are, in
order, the commands of the prefixed lines in source order, one per prefixed line;
the commands correspond position by position to the segments of the input (each
maximal run of literal lines, blank lines ignored, gives one `Shell` command in
its place, each directive line its command); and the number of commands is the
number of prefixed lines plus the number of runs. -/
theorem source_order_and_grouping (name b : Str) (s : Script)
    (hs : NewScript name b = .ok s) :
    s.Commands.filter (fun c => !c.isShell) =
        ((Split '\n' b).filter isDirective).filterMap
          (fun l => (NewControlCommand (l.drop 2)).toOption) ∧
      (s.Commands.filter (fun c => !c.isShell)).length =
        ((Split '\n' b).filter isDirective).length ∧
      List.Forall₂ Segment.yields (segments (Split '\n' b)) s.Commands ∧
      s.Commands.length =
        ((Split '\n' b).filter isDirective).length +
          ((segments (Split '\n' b)).filter Segment.isText).length := by
  obtain ⟨_, _, hr⟩ := (NewScript_eq_ok_iff name b s).1 hs
  have hy := render_yields _ _ hr
  have h1 := yields_directives _ _ hy
  obtain ⟨h2, h3⟩ := yields_length _ _ hy
  rw [segments_directiveLines] at h1 h2 h3
  exact ⟨h1, h3, hy, h2⟩

/-- C8, witness: two runs of literal lines around two directives. -/
theorem source_order_and_grouping_witness :
    [Command.Shell "a\nb\n".toList, .Wait 1000000, .Delay 2000000,
        .Shell "c".toList].filter (fun c => !c.isShell) =
        ((Split '\n' "a\n\nb\n#$wait:1\n#$delay:2\nc\n".toList).filter isDirective).filterMap
          (fun l => (NewControlCommand (l.drop 2)).toOption) ∧
      ([Command.Shell "a\nb\n".toList, .Wait 1000000, .Delay 2000000,
        .Shell "c".toList].filter (fun c => !c.isShell)).length =
        ((Split '\n' "a\n\nb\n#$wait:1\n#$delay:2\nc\n".toList).filter isDirective).length ∧
      List.Forall₂ Segment.yields
        (segments (Split '\n' "a\n\nb\n#$wait:1\n#$delay:2\nc\n".toList))
        [Command.Shell "a\nb\n".toList, .Wait 1000000, .Delay 2000000, .Shell "c".toList] ∧
      [Command.Shell "a\nb\n".toList, .Wait 1000000, .Delay 2000000,
        .Shell "c".toList].length =
        ((Split '\n' "a\n\nb\n#$wait:1\n#$delay:2\nc\n".toList).filter isDirective).length +
          ((segments (Split '\n' "a\n\nb\n#$wait:1\n#$delay:2\nc\n".toList)).filter
            Segment.isText).length :=
  source_order_and_grouping "demo".toList "a\n\nb\n#$wait:1\n#$delay:2\nc\n".toList
    ⟨"demo".toList,
      [.Shell "a\nb\n".toList, .Wait 1000000, .Delay 2000000, .Shell "c".toList], 25000000⟩
    rfl

/-! ## Durations -/

theorem yields_of_mem (segs : List Segment) (cs : List Command)
    (h : List.Forall₂ Segment.yields segs cs) (c : Command) (hc : c ∈ cs) :
    ∃ seg ∈ segs, seg.yields c := by
  induction h with
  | nil => simp at hc
  | @cons seg c2 segs2 cs2 hy _ ih =>
    rcases List.mem_cons.1 hc with rfl | hc
    · exact ⟨seg, by simp, hy⟩
    · obtain ⟨seg3, h3, h4⟩ := ih hc
      exact ⟨seg3, by simp [h3], h4⟩

/-- Every command of a parsed script that is not a `Shell` was built by
`NewControlCommand` from a prefixed line of the input. -/
theorem command_provenance (name b : Str) (s : Script) (hs : NewScript name b = .ok s)
    (c : Command) (hc : c ∈ s.Commands) (hns : c.isShell = false) :
    ∃ line ∈ Split '\n' b, isDirective line = true ∧
      NewControlCommand (line.drop 2) = .ok c := by
  obtain ⟨_, _, hr⟩ := (NewScript_eq_ok_iff name b s).1 hs
  obtain ⟨seg, hseg, hy⟩ := yields_of_mem _ _ (render_yields _ _ hr) c hc
  cases seg with
  | text ls =>
    rcases hy with rfl | rfl <;> cases hns
  | directive d =>
    have hd : d ∈ (segments (Split '\n' b)).filterMap Segment.directiveLine :=
      List.mem_filterMap.2 ⟨_, hseg, rfl⟩
    rw [segments_directiveLines, List.mem_filter] at hd
    exact ⟨d, hd.1, hd.2, hy⟩

theorem runLoop_delay_nonneg (cmds : List Command) (h : ∀ d, Command.Delay d ∈ cmds → 0 ≤ d)
    (i : Nat) (sc : Script) (trace : List Event) (hsc : 0 ≤ sc.TypingDelay) :
    0 ≤ (runLoop Command.Run i sc trace cmds).1.TypingDelay := by
  induction cmds generalizing i sc trace with
  | nil => exact hsc
  | cons c rest ih =>
    have hrest : ∀ d, Command.Delay d ∈ rest → 0 ≤ d := fun d hd => h d (by simp [hd])
    cases c with
    | Shell t => exact ih hrest _ _ _ hsc
    | Wait d => exact ih hrest _ _ _ hsc
    | Delay d => exact ih hrest _ _ _ (h d (by simp))

/-- C9, as amended: for every input that `NewScript` parses and in which the first
argument of every directive denotes an integer from 0 to 9223372036854, every
`Wait` duration and every `Delay` interval of the result is non-negative, and the
typing delay is non-negative after every step of `Run`. -/
theorem durations_nonneg (name b : Str) (s : Script) (hs : NewScript name b = .ok s)
    (harg : ∀ line ∈ Split '\n' b, isDirective line = true →
      ∀ ms, ParseInt ((Split ':' (line.drop 2)).tail.headD []) = .ok ms →
        0 ≤ ms ∧ ms ≤ 9223372036854) :
    (∀ d, Command.Wait d ∈ s.Commands → 0 ≤ d) ∧
      (∀ d, Command.Delay d ∈ s.Commands → 0 ≤ d) ∧
      ∀ k, 0 ≤ (runLoop Command.Run 0 s [] (s.Commands.take k)).1.TypingDelay := by
  have key : ∀ c ∈ s.Commands, ∀ d, (c = .Wait d ∨ c = .Delay d) → 0 ≤ d := by
    intro c hc d hcd
    have hns : c.isShell = false := by rcases hcd with rfl | rfl <;> rfl
    obtain ⟨line, hl, hd, hn⟩ := command_provenance name b s hs c hc hns
    obtain ⟨ms, hp, hms⟩ := NewControlCommand_ok _ c hn
    obtain ⟨h0, h1⟩ := harg line hl hd ms hp
    have e := msDuration_eq ms (by omega) h1
    have hd0 : d = msDuration ms := by
      rcases hcd with rfl | rfl <;> rcases hms with h | h <;> cases h <;> rfl
    rw [hd0, e]
    omega
  have hW : ∀ d, Command.Wait d ∈ s.Commands → 0 ≤ d := fun d hd => key _ hd d (Or.inl rfl)
  have hD : ∀ d, Command.Delay d ∈ s.Commands → 0 ≤ d := fun d hd => key _ hd d (Or.inr rfl)
  refine ⟨hW, hD, fun k => ?_⟩
  obtain ⟨_, h25, _⟩ := (NewScript_eq_ok_iff name b s).1 hs
  refine runLoop_delay_nonneg _ (fun d hd => hD d (List.mem_of_mem_take hd)) 0 s [] ?_
  rw [h25]
  decide

/-- C9, witness: a script whose directive arguments are 0 and 40, after all three
of its commands have run. -/
theorem durations_nonneg_witness :
    0 ≤ (runLoop Command.Run 0
      ⟨"demo".toList, [.Delay 0, .Shell "ls\n".toList, .Wait 40000000], 25000000⟩ []
      ([Command.Delay 0, .Shell "ls\n".toList, .Wait 40000000].take 3)).1.TypingDelay :=
  (durations_nonneg "demo".toList "#$delay:0\nls\n#$wait:40".toList
    ⟨"demo".toList, [.Delay 0, .Shell "ls\n".toList, .Wait 40000000], 25000000⟩ rfl
    (by
      intro line hl hd ms hp
      have hmem : line = "#$delay:0".toList ∨ line = "ls".toList ∨
          line = "#$wait:40".toList := by
        have hsp : Split '\n' "#$delay:0\nls\n#$wait:40".toList =
            ["#$delay:0".toList, "ls".toList, "#$wait:40".toList] := by decide
        rw [hsp] at hl
        simpa using hl
      rcases hmem with rfl | rfl | rfl
      · have h0 : ParseInt ((Split ':' ("#$delay:0".toList.drop 2)).tail.headD []) =
            .ok 0 := by decide
        rw [h0] at hp
        cases hp
        decide
      · exact absurd hd (by decide)
      · have h0 : ParseInt ((Split ':' ("#$wait:40".toList.drop 2)).tail.headD []) =
            .ok 40 := by decide
        rw [h0] at hp
        cases hp
        decide)).2.2 3

/-- C9, counterexample: the arguments `-5` and `-1` are accepted and give a negative
`Wait` duration and, after the run, a negative typing delay; the argument
`9223372036855` is accepted and gives a `Wait` duration that wraps to a negative
value. -/
theorem negative_durations_accepted :
    NewScript "demo".toList "#$wait:-5\n#$delay:-1\nx".toList =
        .ok ⟨"demo".toList, [.Wait (-5000000), .Delay (-1000000), .Shell "x".toList],
          25000000⟩ ∧
      (Script.Run ⟨"demo".toList,
        [.Wait (-5000000), .Delay (-1000000), .Shell "x".toList],
        25000000⟩).1.TypingDelay = -1000000 ∧
      NewScript "demo".toList "#$wait:9223372036855".toList =
        .ok ⟨"demo".toList, [.Wait (-9223372036854551616)], 25000000⟩ := by
  decide

/-! ## Range of accepted delays -/

theorem parseLines_single_directive (x : Str) (c : Command)
    (h : NewControlCommand x = .ok c) : parseLines ['#' :: '$' :: x] = some [c] := by
  unfold parseLines
  rw [scriptLoop_directive _ _ _ _ _ (isDirective_hash_dollar x)]
  simp only [List.drop_succ_cons, List.drop_zero, h]
  simp [scriptLoop, flushMid, flushFinal, Except.toOption]

/-- C10, as amended: for every natural number `N ≤ 9223372036854` written in
decimal, `#$delay:N` parses and running the resulting command sets the typing
delay to exactly `N * 1000000` nanoseconds, a value below `2^63`; likewise
`#$wait:N` parses to a `Wait` that sleeps exactly `N * 1000000` nanoseconds. -/
theorem delay_accepted_in_range (name : Str) (N : Nat) (hN : N ≤ 9223372036854) :
    NewScript name ("#$delay:".toList ++ formatUint N) =
        .ok ⟨name, [.Delay (1000000 * N)], 25000000⟩ ∧
      (Script.Run ⟨name, [.Delay (1000000 * N)], 25000000⟩).1.TypingDelay =
        1000000 * (N : Int) ∧
      1000000 * (N : Int) < 2 ^ 63 ∧
      NewScript name ("#$wait:".toList ++ formatUint N) =
        .ok ⟨name, [.Wait (1000000 * N)], 25000000⟩ ∧
      (Script.Run ⟨name, [.Wait (1000000 * N)], 25000000⟩).2.1 =
        [.Sleep (1000000 * N)] := by
  obtain ⟨_, hall, _⟩ := formatUint_spec N
  have hnl : '\n' ∉ formatUint N := (allDigits_not_mem _ hall).1
  have hd := msDuration_eq (N : Int) (by omega) (by omega)
  have hdel := NewControlCommand_delay_formatInt (N : Int) (by omega) (by omega)
  have hwait := NewControlCommand_wait_formatInt (N : Int) (by omega) (by omega)
  rw [formatInt_natCast, hd] at hdel hwait
  refine ⟨?_, rfl, by omega, ?_, rfl⟩
  · rw [NewScript_ok_iff_parseLines]
    refine ⟨rfl, rfl, ?_⟩
    have e : "#$delay:".toList ++ formatUint N =
        '#' :: '$' :: ("delay".toList ++ ':' :: formatUint N) := rfl
    rw [Split_of_not_mem, e]
    · exact parseLines_single_directive _ _ hdel
    · simp only [List.mem_append, not_or]
      exact ⟨by decide, hnl⟩
  · rw [NewScript_ok_iff_parseLines]
    refine ⟨rfl, rfl, ?_⟩
    have e : "#$wait:".toList ++ formatUint N =
        '#' :: '$' :: ("wait".toList ++ ':' :: formatUint N) := rfl
    rw [Split_of_not_mem, e]
    · exact parseLines_single_directive _ _ hwait
    · simp only [List.mem_append, not_or]
      exact ⟨by decide, hnl⟩

/-- C10, witness: the largest accepted value, `N = 9223372036854`. -/
theorem delay_accepted_in_range_witness :
    NewScript "demo".toList ("#$delay:".toList ++ formatUint 9223372036854) =
        .ok ⟨"demo".toList, [.Delay (1000000 * (9223372036854 : Nat))], 25000000⟩ ∧
      (Script.Run ⟨"demo".toList, [.Delay (1000000 * (9223372036854 : Nat))],
        25000000⟩).1.TypingDelay = 1000000 * ((9223372036854 : Nat) : Int) ∧
      1000000 * ((9223372036854 : Nat) : Int) < 2 ^ 63 ∧
      NewScript "demo".toList ("#$wait:".toList ++ formatUint 9223372036854) =
        .ok ⟨"demo".toList, [.Wait (1000000 * (9223372036854 : Nat))], 25000000⟩ ∧
      (Script.Run ⟨"demo".toList, [.Wait (1000000 * (9223372036854 : Nat))],
        25000000⟩).2.1 = [.Sleep (1000000 * (9223372036854 : Nat))] :=
  delay_accepted_in_range "demo".toList 9223372036854 (by decide)

/-- C10, counterexample: `#$delay:9223372036855` is accepted but the interval wraps
to a negative number of nanoseconds, and `#$delay:9223372036854775808` is
rejected. -/
theorem delay_beyond_range :
    NewScript "demo".toList ("#$delay:".toList ++ formatUint 9223372036855) =
        .ok ⟨"demo".toList, [.Delay (-9223372036854551616)], 25000000⟩ ∧
      NewScript "demo".toList ("#$delay:".toList ++ formatUint 9223372036854775808) =
        .error ⟨.ErrBadArg, 0⟩ := by
  decide

/-! ## Unknown directives -/

/-- C11, as amended: for every directive name other than `delay` and `wait`,
`NewControlCommand` returns the fixed error `ErrUnknownCmd`, which does not carry
the name; the parse failure `NewScript` builds from it holds that error and the
line index only, its message being `unknown command (line k)`, so two different
unknown names at the same line give the same error. -/
theorem unknown_command_error :
    (∀ cmd : Str, (Split ':' cmd).headD [] ≠ "delay".toList →
      (Split ':' cmd).headD [] ≠ "wait".toList →
      NewControlCommand cmd = .error .ErrUnknownCmd) ∧
    (∀ (name b : Str) (k : Nat) (line : Str),
      (Split '\n' b)[k]? = some line →
      isDirective line = true →
      (Split ':' (line.drop 2)).headD [] ≠ "delay".toList →
      (Split ':' (line.drop 2)).headD [] ≠ "wait".toList →
      (∀ j l, j < k → (Split '\n' b)[j]? = some l → isDirective l = true →
        ∃ c, NewControlCommand (l.drop 2) = .ok c) →
      NewScript name b = .error ⟨.ErrUnknownCmd, k⟩) ∧
    (∀ k : Nat, ParseError.Error ⟨.ErrUnknownCmd, k⟩ =
      "unknown command (line ".toList ++ formatUint k ++ ")".toList) := by
  have h1 : ∀ cmd : Str, (Split ':' cmd).headD [] ≠ "delay".toList →
      (Split ':' cmd).headD [] ≠ "wait".toList →
      NewControlCommand cmd = .error .ErrUnknownCmd := by
    intro cmd hd hw
    rw [NewControlCommand_eq, if_neg hd, if_neg hw]
  refine ⟨h1, ?_, fun k => rfl⟩
  intro name b k line hk hdir hd hw hmin
  exact NewScript_error_at name b k line _ hk hdir (h1 _ hd hw)
    (fun j l hj hl => (isMalformed_false_iff l).2 (hmin j l hj hl))

/-- C11, witness: an unknown directive on line 1, after a literal line. -/
theorem unknown_command_error_witness :
    NewScript "demo".toList "ls\n#$frobnicate:1".toList = .error ⟨.ErrUnknownCmd, 1⟩ :=
  unknown_command_error.2.1 "demo".toList "ls\n#$frobnicate:1".toList 1
    "#$frobnicate:1".toList (by decide) (by decide) (by decide) (by decide)
    (by
      intro j l hj hl hd
      have hj0 : j = 0 := by omega
      subst hj0
      have h0 : (Split '\n' "ls\n#$frobnicate:1".toList)[0]? = some "ls".toList := by decide
      rw [h0] at hl
      cases hl
      exact absurd hd (by decide))

/-- C11, counterexample: the unknown names `frobnicate` and `typo` on the same line
give the same failure, with the same message, in which neither name occurs. -/
theorem unknown_names_indistinguishable :
    NewControlCommand "frobnicate:1".toList = NewControlCommand "typo:1".toList ∧
      NewScript "demo".toList "#$frobnicate:1".toList =
        NewScript "demo".toList "#$typo:1".toList ∧
      NewScript "demo".toList "#$frobnicate:1".toList = .error ⟨.ErrUnknownCmd, 0⟩ ∧
      ParseError.Error ⟨.ErrUnknownCmd, 0⟩ = "unknown command (line 0)".toList := by
  decide

/-! ## The execution loop -/

theorem runLoop_trace {κ : Type} (run : κ → Script → Script × List Event × Option Err)
    (cmds : List κ) (i : Nat) (sc : Script) (trace : List Event) :
    runLoop run i sc trace cmds =
      ((runLoop run i sc [] cmds).1, trace ++ (runLoop run i sc [] cmds).2.1,
        (runLoop run i sc [] cmds).2.2) := by
  induction cmds generalizing i sc trace with
  | nil => simp [runLoop]
  | cons c cs ih =>
    unfold runLoop
    rcases h : run c sc with ⟨sc1, ev, e⟩
    cases e with
    | some err => simp
    | none =>
      simp only [List.nil_append]
      rw [ih (i + 1) sc1 (trace ++ ev), ih (i + 1) sc1 ev]
      simp

theorem runLoop_ok {κ : Type} (run : κ → Script → Script × List Event × Option Err)
    (cmds : List κ) (i : Nat) (sc : Script) (trace : List Event)
    (h : noneFails run sc cmds = true) :
    runLoop run i sc trace cmds =
      ((stepAll run sc cmds).1, trace ++ (stepAll run sc cmds).2, none) := by
  induction cmds generalizing i sc trace with
  | nil => simp [runLoop, stepAll]
  | cons c cs ih =>
    simp only [noneFails, Bool.and_eq_true] at h
    obtain ⟨h1, h2⟩ := h
    unfold runLoop stepAll
    rcases hr : run c sc with ⟨sc1, ev, e⟩
    rw [hr] at h1 h2
    cases e with
    | some err => simp at h1
    | none =>
      simp only []
      rw [ih (i + 1) sc1 (trace ++ ev) h2]
      simp

theorem runLoop_fail {κ : Type} (run : κ → Script → Script × List Event × Option Err)
    (pre post : List κ) (c : κ) (err : Err) (i : Nat) (sc : Script) (trace : List Event)
    (hpre : noneFails run sc pre = true)
    (hc : (run c (stepAll run sc pre).1).2.2 = some err) :
    runLoop run i sc trace (pre ++ c :: post) =
      ((run c (stepAll run sc pre).1).1,
        trace ++ (stepAll run sc pre).2 ++ (run c (stepAll run sc pre).1).2.1,
        some ⟨err, i + pre.length⟩) := by
  induction pre generalizing i sc trace with
  | nil =>
    simp only [stepAll] at hc
    simp only [List.nil_append, stepAll, List.append_nil, List.length_nil, Nat.add_zero]
    unfold runLoop
    rcases hr : run c sc with ⟨sc1, ev, e⟩
    rw [hr] at hc
    simp only at hc
    subst hc
    rfl
  | cons p ps ih =>
    simp only [noneFails, Bool.and_eq_true] at hpre
    obtain ⟨h1, h2⟩ := hpre
    simp only [stepAll] at hc ⊢
    rw [List.cons_append]
    unfold runLoop
    rcases hr : run p sc with ⟨sc1, ev, e⟩
    rw [hr] at h1 h2 hc
    cases e with
    | some err2 => simp at h1
    | none =>
      simp only [] at hc ⊢
      rw [ih (i + 1) sc1 (trace ++ ev) h2 hc]
      simp only [List.length_cons, List.append_assoc]
      have e : i + 1 + ps.length = i + (ps.length + 1) := by omega
      rw [e]

/-! ## Execution of the three commands -/

theorem Shell_Run_events (t : Str) (sc : Script) :
    (Command.Run (.Shell t) sc).2.1 = typed t sc.TypingDelay := by
  simp only [Command.Run, typed]
  induction t with
  | nil => rfl
  | cons ch rest ih => simp [List.flatMap_cons, ih]

theorem printed_typed (t : Str) (d : Int) : printed (typed t d) = t := by
  induction t with
  | nil => rfl
  | cons ch rest ih =>
    simp only [typed, printed, List.flatMap_cons] at ih ⊢
    simp [ih]

theorem printed_append (a b : List Event) : printed (a ++ b) = printed a ++ printed b := by
  simp [printed, List.filterMap_append]

theorem Command_Run_ok (c : Command) (sc : Script) : (Command.Run c sc).2.2 = none := by
  cases c <;> rfl

theorem noneFails_Command (cmds : List Command) (sc : Script) :
    noneFails Command.Run sc cmds = true := by
  induction cmds generalizing sc with
  | nil => rfl
  | cons c cs ih => simp [noneFails, Command_Run_ok, ih]

theorem lastDelay_nil (d0 : Int) : lastDelay d0 [] = d0 := rfl

theorem lastDelay_cons_Delay (d0 d : Int) (cs : List Command) :
    lastDelay d0 (.Delay d :: cs) = lastDelay d cs := by
  unfold lastDelay
  simp only [List.filterMap_cons, Command.delayInterval]
  cases h : List.filterMap Command.delayInterval cs with
  | nil => rfl
  | cons x xs =>
    rw [List.getLast?_cons_cons]
    cases hl : (x :: xs).getLast? with
    | none => simp at hl
    | some y => rfl

theorem lastDelay_cons_Shell (d0 : Int) (t : Str) (cs : List Command) :
    lastDelay d0 (.Shell t :: cs) = lastDelay d0 cs := by
  simp [lastDelay, Command.delayInterval]

theorem lastDelay_cons_Wait (d0 d : Int) (cs : List Command) :
    lastDelay d0 (.Wait d :: cs) = lastDelay d0 cs := by
  simp [lastDelay, Command.delayInterval]

theorem lastDelay_of_no_Delay (d0 : Int) (cmds : List Command)
    (h : ∀ d, Command.Delay d ∉ cmds) : lastDelay d0 cmds = d0 := by
  induction cmds with
  | nil => rfl
  | cons c cs ih =>
    have hcs : ∀ d, Command.Delay d ∉ cs := fun d hd => h d (by simp [hd])
    cases c with
    | Shell t => rw [lastDelay_cons_Shell, ih hcs]
    | Wait d => rw [lastDelay_cons_Wait, ih hcs]
    | Delay d => exact absurd (by simp) (h d)

theorem stepAll_Command_state (cmds : List Command) (sc : Script) :
    (stepAll Command.Run sc cmds).1 =
      ⟨sc.Name, sc.Commands, lastDelay sc.TypingDelay cmds⟩ := by
  induction cmds generalizing sc with
  | nil => rfl
  | cons c cs ih =>
    simp only [stepAll]
    rw [ih]
    cases c with
    | Shell t => simp [Command.Run, lastDelay_cons_Shell]
    | Wait d => simp [Command.Run, lastDelay_cons_Wait]
    | Delay d => simp [Command.Run, lastDelay_cons_Delay]

theorem stepAll_append {κ : Type} (run : κ → Script → Script × List Event × Option Err)
    (a b : List κ) (sc : Script) :
    stepAll run sc (a ++ b) =
      ((stepAll run (stepAll run sc a).1 b).1,
        (stepAll run sc a).2 ++ (stepAll run (stepAll run sc a).1 b).2) := by
  induction a generalizing sc with
  | nil => simp [stepAll]
  | cons c cs ih =>
    rw [List.cons_append]
    simp only [stepAll]
    rw [ih]
    simp

theorem runLoop_Command (cmds : List Command) (i : Nat) (sc : Script) :
    runLoop Command.Run i sc [] cmds =
      (⟨sc.Name, sc.Commands, lastDelay sc.TypingDelay cmds⟩,
        (stepAll Command.Run sc cmds).2, none) := by
  rw [runLoop_ok Command.Run cmds i sc [] (noneFails_Command cmds sc), stepAll_Command_state]
  simp

theorem Script_Run_eq (s : Script) :
    Script.Run s =
      (⟨s.Name, s.Commands, lastDelay s.TypingDelay s.Commands⟩,
        (stepAll Command.Run s s.Commands).2, none) :=
  runLoop_Command s.Commands 0 s

/-- The trace of a run around a `Shell` command: the events of the commands before
it, its characters typed at the delay in force, the events of the commands after
it. -/
theorem trace_around_Shell (s : Script) (cmds pre post : List Command) (t : Str)
    (h : cmds = pre ++ .Shell t :: post) :
    (runLoop Command.Run 0 s [] cmds).2.1 =
      (runLoop Command.Run 0 s [] pre).2.1 ++ typed t (lastDelay s.TypingDelay pre) ++
        (runLoop Command.Run 0 ⟨s.Name, s.Commands, lastDelay s.TypingDelay pre⟩ []
          post).2.1 := by
  rw [runLoop_Command, runLoop_Command, runLoop_Command, h, stepAll_append]
  simp only [stepAll, stepAll_Command_state]
  rw [Shell_Run_events]
  simp [Command.Run]

/-! ## Delay propagation -/

/-- C12: in a run from the initial typing delay `d0`, the characters of a `Shell`
command are each followed by a sleep equal to the interval of the last `Delay`
command before it, or `d0` when there is none; the events of the commands before
it are those of running them alone, so a `Delay` changes the gap only for
characters typed after it.  After a delay of 100ms two characters are typed with
two 100ms gaps, and after a later delay of 0 all characters are typed with gap 0. -/
theorem delay_propagation :
    (∀ (s : Script) (pre post : List Command) (t : Str),
      s.Commands = pre ++ .Shell t :: post →
      (Script.Run s).2.1 =
        (runLoop Command.Run 0 s [] pre).2.1 ++ typed t (lastDelay s.TypingDelay pre) ++
          (runLoop Command.Run 0 ⟨s.Name, s.Commands, lastDelay s.TypingDelay pre⟩ []
            post).2.1) ∧
    (∀ (name : Str) (d0 : Int),
      (Script.Run ⟨name, [.Delay 100000000, .Shell "ab".toList, .Delay 0,
          .Shell "cd".toList], d0⟩).2.1 =
        [.Print 'a', .Sleep 100000000, .Print 'b', .Sleep 100000000,
          .Print 'c', .Sleep 0, .Print 'd', .Sleep 0]) := by
  refine ⟨?_, fun name d0 => rfl⟩
  intro s pre post t h
  exact trace_around_Shell s s.Commands pre post t h

/-- C12, witness: the second `Shell` of a script with two `Delay` commands. -/
theorem delay_propagation_witness :
    (Script.Run ⟨"demo".toList,
        [.Delay 100000000, .Shell "ab".toList, .Delay 0, .Shell "cd".toList], 25000000⟩).2.1 =
      (runLoop Command.Run 0 ⟨"demo".toList,
        [.Delay 100000000, .Shell "ab".toList, .Delay 0, .Shell "cd".toList], 25000000⟩ []
        [.Delay 100000000, .Shell "ab".toList, .Delay 0]).2.1 ++
        typed "cd".toList
          (lastDelay 25000000 [.Delay 100000000, .Shell "ab".toList, .Delay 0]) ++
        (runLoop Command.Run 0 ⟨"demo".toList,
          [.Delay 100000000, .Shell "ab".toList, .Delay 0, .Shell "cd".toList],
          lastDelay 25000000 [.Delay 100000000, .Shell "ab".toList, .Delay 0]⟩ [] []).2.1 :=
  delay_propagation.1
    ⟨"demo".toList, [.Delay 100000000, .Shell "ab".toList, .Delay 0, .Shell "cd".toList],
      25000000⟩
    [.Delay 100000000, .Shell "ab".toList, .Delay 0] [] "cd".toList rfl

/-! ## Typed text -/

theorem printed_stepAll (cmds : List Command) (sc : Script) :
    printed (stepAll Command.Run sc cmds).2 =
      (cmds.filterMap Command.shellText).flatten := by
  induction cmds generalizing sc with
  | nil => rfl
  | cons c cs ih =>
    simp only [stepAll, printed_append, ih]
    cases c with
    | Shell t =>
      rw [Shell_Run_events, printed_typed]
      simp [Command.shellText]
    | Wait d => simp [Command.Run, printed, Command.shellText]
    | Delay d => simp [Command.Run, printed, Command.shellText]

/-! ## Frame of execution -/

/-- C15: running a `Shell` or a `Wait` leaves the script state unchanged, running a
`Delay` changes `TypingDelay` only, and `Script.Run` leaves `Name` and `Commands`
unchanged and ends with `TypingDelay` equal to the interval of the last `Delay`
of the sequence, or to the initial delay when the sequence has none. -/
theorem frame_of_execution :
    (∀ (t : Str) (sc : Script), (Command.Run (.Shell t) sc).1 = sc) ∧
    (∀ (d : Int) (sc : Script), (Command.Run (.Wait d) sc).1 = sc) ∧
    (∀ (d : Int) (sc : Script),
      (Command.Run (.Delay d) sc).1 = ⟨sc.Name, sc.Commands, d⟩) ∧
    (∀ s : Script,
      (Script.Run s).1 = ⟨s.Name, s.Commands, lastDelay s.TypingDelay s.Commands⟩) ∧
    (∀ s : Script, (∀ d, Command.Delay d ∉ s.Commands) → (Script.Run s).1 = s) := by
  refine ⟨fun _ _ => rfl, fun _ _ => rfl, fun _ _ => rfl, ?_, ?_⟩
  · intro s
    rw [Script_Run_eq]
  · intro s h
    rw [Script_Run_eq, lastDelay_of_no_Delay _ _ h]

/-- C15, witness: a script without `Delay` commands is left as it was. -/
theorem frame_of_execution_witness :
    (Script.Run ⟨"demo".toList, [.Shell "ls".toList, .Wait 5], 25000000⟩).1 =
      ⟨"demo".toList, [.Shell "ls".toList, .Wait 5], 25000000⟩ :=
  frame_of_execution.2.2.2.2 ⟨"demo".toList, [.Shell "ls".toList, .Wait 5], 25000000⟩
    (fun d hd => by simp at hd)

/-! ## Absence of run-time errors -/

/-- C16: the `Run` method of `Shell`, `Wait` and `Delay` returns no error for every
stored value and every script state; hence `Script.Run` returns no error, in
particular for every script a successful `NewScript` produces. -/
theorem no_runtime_errors :
    (∀ (c : Command) (sc : Script), (Command.Run c sc).2.2 = none) ∧
    (∀ s : Script, (Script.Run s).2.2 = none) ∧
    (∀ (name b : Str) (s : Script), NewScript name b = .ok s → (Script.Run s).2.2 = none) := by
  have h : ∀ s : Script, (Script.Run s).2.2 = none := by
    intro s
    rw [Script_Run_eq]
  exact ⟨Command_Run_ok, h, fun _ _ s _ => h s⟩

/-- C16, witness: the script parsed from a file with both directives and text. -/
theorem no_runtime_errors_witness :
    (Script.Run ⟨"demo".toList, [.Delay (-1000000), .Shell "ls\n".toList, .Wait 40000000],
      25000000⟩).2.2 = none :=
  no_runtime_errors.2.2 "demo".toList "#$delay:-1\nls\n#$wait:40".toList _ rfl

/-! ## Parsing applies no directive -/

/-- C20: for every input that parses, the returned script has a typing delay of
exactly 25 milliseconds, whatever `#$delay` directives the input holds; in the
run, the characters of every `Shell` command before the first `Delay` are typed
with a gap of 25 milliseconds. -/
theorem parsing_applies_no_directive (name b : Str) (s : Script)
    (hs : NewScript name b = .ok s) :
    s.TypingDelay = 25000000 ∧
      ∀ (pre post : List Command) (t : Str),
        s.Commands = pre ++ .Shell t :: post →
        (∀ d, Command.Delay d ∉ pre) →
        (Script.Run s).2.1 =
          (runLoop Command.Run 0 s [] pre).2.1 ++ typed t 25000000 ++
            (runLoop Command.Run 0 s [] post).2.1 := by
  obtain ⟨_, h25, _⟩ := (NewScript_eq_ok_iff name b s).1 hs
  have h25b : s.TypingDelay = 25000000 := by rw [h25]; rfl
  refine ⟨h25b, ?_⟩
  intro pre post t h hno
  have := trace_around_Shell s s.Commands pre post t h
  rw [lastDelay_of_no_Delay _ _ hno, h25b] at this
  rw [← h25b] at this
  have e : (⟨s.Name, s.Commands, s.TypingDelay⟩ : Script) = s := rfl
  rw [e] at this
  rw [h25b] at this
  exact this

/-- C20, witness: a script that sets the delay to 0 after its first line. -/
theorem parsing_applies_no_directive_witness :
    (⟨"demo".toList, [.Shell "ls\n".toList, .Delay 0, .Shell "pwd".toList],
        25000000⟩ : Script).TypingDelay = 25000000 ∧
      (Script.Run ⟨"demo".toList, [.Shell "ls\n".toList, .Delay 0, .Shell "pwd".toList],
        25000000⟩).2.1 =
        [.Print 'l', .Sleep 25000000, .Print 's', .Sleep 25000000, .Print '\n',
          .Sleep 25000000, .Print 'p', .Sleep 0, .Print 'w', .Sleep 0, .Print 'd',
          .Sleep 0] :=
  match parsing_applies_no_directive "demo".toList "ls\n#$delay:0\npwd".toList
    ⟨"demo".toList, [.Shell "ls\n".toList, .Delay 0, .Shell "pwd".toList], 25000000⟩ rfl with
  | ⟨h1, h2⟩ =>
    ⟨h1, h2 [] [.Delay 0, .Shell "pwd".toList] "ls\n".toList rfl (fun d hd => by simp at hd)⟩

/-! ## Characters of an accepted integer -/

/-- A string `ParseInt` accepts is a sign or a digit followed by digits only. -/
theorem ParseInt_ok_chars (s : Str) (z : Int) (h : ParseInt s = .ok z) :
    ∃ c cs, s = c :: cs ∧ (c = '-' ∨ c = '+' ∨ ('0' ≤ c ∧ c ≤ '9')) ∧
      allDigits cs = true := by
  cases s with
  | nil => simp [ParseInt] at h
  | cons c cs =>
    refine ⟨c, cs, rfl, ?_⟩
    by_cases hm : c = '-'
    · subst hm
      exact ⟨Or.inl rfl, ((ParseInt_minus cs z).1 h).2.1⟩
    · by_cases hp : c = '+'
      · subst hp
        exact ⟨Or.inr (Or.inl rfl), ((ParseInt_plus cs z).1 h).2.1⟩
      · obtain ⟨ha, _⟩ := (ParseInt_unsigned c cs z hp hm).1 h
        obtain ⟨h1, h2⟩ := (allDigits_cons c cs).1 ha
        exact ⟨Or.inr (Or.inr h1), h2⟩

theorem allDigits_not_mem_cr (s : Str) (h : allDigits s = true) : '\r' ∉ s := by
  induction s with
  | nil => simp
  | cons c cs ih =>
    obtain ⟨hc, hcs⟩ := (allDigits_cons c cs).1 h
    have h1 : c ≠ '\r' := by
      rintro rfl
      revert hc
      decide
    simp [h1.symm, ih hcs]

theorem ParseInt_ok_not_mem (s : Str) (z : Int) (h : ParseInt s = .ok z) :
    '\n' ∉ s ∧ ':' ∉ s ∧ '\r' ∉ s.tail := by
  obtain ⟨c, cs, rfl, hc, hcs⟩ := ParseInt_ok_chars s z h
  obtain ⟨h1, h2⟩ := allDigits_not_mem cs hcs
  have h3 := allDigits_not_mem_cr cs hcs
  have hc2 : c ≠ '\n' ∧ c ≠ ':' := by
    rcases hc with rfl | rfl | hd
    · exact ⟨by decide, by decide⟩
    · exact ⟨by decide, by decide⟩
    · exact ⟨(digit_not_special c hd).1, (digit_not_special c hd).2.1⟩
  refine ⟨?_, ?_, h3⟩
  · simp [hc2.1.symm, h1]
  · simp [hc2.2.symm, h2]

/-- An integer token followed by a carriage return is not accepted. -/
theorem ParseInt_carriage_return (tok : Str) (hne : tok ≠ []) :
    ∃ e, ParseInt (tok ++ ['\r']) = .error e := by
  cases hp : ParseInt (tok ++ ['\r']) with
  | error e => exact ⟨e, rfl⟩
  | ok z =>
    obtain ⟨_, _, h3⟩ := ParseInt_ok_not_mem _ z hp
    cases tok with
    | nil => exact absurd rfl hne
    | cons c cs => simp at h3

theorem formatInt_ne_nil (z : Int) : formatInt z ≠ [] := by
  unfold formatInt
  split_ifs
  · simp
  · exact (formatUint_spec _).1

/-! ## Extra directive arguments -/

theorem NewWait_cons (tok : Str) (more : List Str) : NewWait (tok :: more) = NewWait [tok] :=
  rfl

theorem NewDelay_cons (tok : Str) (more : List Str) :
    NewDelay (tok :: more) = NewDelay [tok] := rfl

/-- C19: for every valid integer token and every `rest` without a newline, the
lines `#$wait:N:rest` and `#$delay:N:rest` parse to the same command as `#$wait:N`
and `#$delay:N`; only the first argument is read. -/
theorem extra_arguments_ignored (name tok rest : Str) (hv : validInt64 tok = true)
    (hrest : '\n' ∉ rest) :
    ∃ ms, ParseInt tok = .ok ms ∧
      NewScript name ("#$wait:".toList ++ tok ++ ':' :: rest) =
        .ok ⟨name, [.Wait (msDuration ms)], 25000000⟩ ∧
      NewScript name ("#$wait:".toList ++ tok) =
        .ok ⟨name, [.Wait (msDuration ms)], 25000000⟩ ∧
      NewScript name ("#$delay:".toList ++ tok ++ ':' :: rest) =
        .ok ⟨name, [.Delay (msDuration ms)], 25000000⟩ ∧
      NewScript name ("#$delay:".toList ++ tok) =
        .ok ⟨name, [.Delay (msDuration ms)], 25000000⟩ := by
  obtain ⟨ms, hp⟩ := (ParseInt_ok_iff_valid tok).2 hv
  obtain ⟨hnl, hcolon, _⟩ := ParseInt_ok_not_mem tok ms hp
  have hw1 : NewControlCommand ("wait".toList ++ ':' :: (tok ++ ':' :: rest)) =
      .ok (.Wait (msDuration ms)) := by
    rw [NewControlCommand_wait, Split_append_sep _ _ _ hcolon, NewWait_cons]
    simp only [NewWait, hp]
  have hw2 : NewControlCommand ("wait".toList ++ ':' :: tok) =
      .ok (.Wait (msDuration ms)) := by
    rw [NewControlCommand_wait, Split_of_not_mem _ _ hcolon]
    simp only [NewWait, hp]
  have hd1 : NewControlCommand ("delay".toList ++ ':' :: (tok ++ ':' :: rest)) =
      .ok (.Delay (msDuration ms)) := by
    rw [NewControlCommand_delay, Split_append_sep _ _ _ hcolon, NewDelay_cons]
    simp only [NewDelay, hp]
  have hd2 : NewControlCommand ("delay".toList ++ ':' :: tok) =
      .ok (.Delay (msDuration ms)) := by
    rw [NewControlCommand_delay, Split_of_not_mem _ _ hcolon]
    simp only [NewDelay, hp]
  have one : ∀ (x : Str) (c : Command), '\n' ∉ x → NewControlCommand x = .ok c →
      NewScript name ('#' :: '$' :: x) = .ok ⟨name, [c], 25000000⟩ := by
    intro x c hx hc
    rw [NewScript_ok_iff_parseLines]
    refine ⟨rfl, rfl, ?_⟩
    rw [Split_of_not_mem]
    · exact parseLines_single_directive x c hc
    · simp only [List.mem_cons, not_or]
      exact ⟨by decide, by decide, hx⟩
  have e1 : "#$wait:".toList ++ tok ++ ':' :: rest =
      '#' :: '$' :: ("wait".toList ++ ':' :: (tok ++ ':' :: rest)) := rfl
  have e2 : "#$wait:".toList ++ tok = '#' :: '$' :: ("wait".toList ++ ':' :: tok) := rfl
  have e3 : "#$delay:".toList ++ tok ++ ':' :: rest =
      '#' :: '$' :: ("delay".toList ++ ':' :: (tok ++ ':' :: rest)) := rfl
  have e4 : "#$delay:".toList ++ tok = '#' :: '$' :: ("delay".toList ++ ':' :: tok) := rfl
  rw [e1, e2, e3, e4]
  refine ⟨ms, hp, one _ _ ?_ hw1, one _ _ ?_ hw2, one _ _ ?_ hd1, one _ _ ?_ hd2⟩
  · simp only [List.mem_append, List.mem_cons, not_or]
    exact ⟨by decide, by decide, hnl, by decide, hrest⟩
  · simp only [List.mem_append, List.mem_cons, not_or]
    exact ⟨by decide, by decide, hnl⟩
  · simp only [List.mem_append, List.mem_cons, not_or]
    exact ⟨by decide, by decide, hnl, by decide, hrest⟩
  · simp only [List.mem_append, List.mem_cons, not_or]
    exact ⟨by decide, by decide, hnl⟩

/-- C19, witness: the token `-12` followed by two more arguments. -/
theorem extra_arguments_ignored_witness :
    ∃ ms, ParseInt "-12".toList = .ok ms ∧
      NewScript "demo".toList ("#$wait:".toList ++ "-12".toList ++ ':' :: "x:#$y".toList) =
        .ok ⟨"demo".toList, [.Wait (msDuration ms)], 25000000⟩ ∧
      NewScript "demo".toList ("#$wait:".toList ++ "-12".toList) =
        .ok ⟨"demo".toList, [.Wait (msDuration ms)], 25000000⟩ ∧
      NewScript "demo".toList ("#$delay:".toList ++ "-12".toList ++ ':' :: "x:#$y".toList) =
        .ok ⟨"demo".toList, [.Delay (msDuration ms)], 25000000⟩ ∧
      NewScript "demo".toList ("#$delay:".toList ++ "-12".toList) =
        .ok ⟨"demo".toList, [.Delay (msDuration ms)], 25000000⟩ :=
  extra_arguments_ignored "demo".toList "-12".toList "x:#$y".toList (by decide) (by decide)

/-! ## Carriage returns -/

theorem NewControlCommand_carriage_return (N : Int) :
    NewControlCommand ("wait".toList ++ ':' :: (formatInt N ++ ['\r'])) =
        .error .ErrBadArg ∧
      NewControlCommand ("delay".toList ++ ':' :: (formatInt N ++ ['\r'])) =
        .error .ErrBadArg := by
  have hcolon : ':' ∉ formatInt N ++ ['\r'] := by
    simp only [List.mem_append, List.mem_singleton, not_or]
    exact ⟨(formatInt_not_mem N).2, by decide⟩
  obtain ⟨e, he⟩ := ParseInt_carriage_return (formatInt N) (formatInt_ne_nil N)
  constructor
  · rw [NewControlCommand_wait, Split_of_not_mem _ _ hcolon]
    simp only [NewWait, he]
  · rw [NewControlCommand_delay, Split_of_not_mem _ _ hcolon]
    simp only [NewDelay, he]

theorem isLiteral_append_cr (l : Str) (h : isLiteral l = true) :
    isLiteral (l ++ ['\r']) = true := by
  obtain ⟨h1, h2⟩ := (isLiteral_iff l).1 h
  rw [isLiteral_iff]
  refine ⟨by simp, ?_⟩
  cases l with
  | nil => exact absurd rfl h1
  | cons c cs =>
    cases cs with
    | nil =>
      simp only [List.singleton_append, isDirective, HasPrefix, ControlPrefix]
      have : ('\r' == '$') = false := by decide
      simp [this]
    | cons c2 cs2 =>
      simp only [isDirective, HasPrefix, ControlPrefix, List.cons_append] at h2 ⊢
      exact h2

/-- C17: a directive line `#$wait:N` or `#$delay:N` followed by a carriage return is
rejected with the invalid-argument error, at its own line when no earlier line is
malformed; a literal line keeps a final carriage return in the `Shell` text; and a
line holding only a carriage return is literal text, not a blank line. -/
theorem carriage_return_kept :
    (∀ N : Int,
      NewControlCommand ("wait".toList ++ ':' :: (formatInt N ++ ['\r'])) =
          .error .ErrBadArg ∧
        NewControlCommand ("delay".toList ++ ':' :: (formatInt N ++ ['\r'])) =
          .error .ErrBadArg) ∧
    (∀ (name b : Str) (k : Nat) (N : Int),
      ((Split '\n' b)[k]? = some ("#$wait:".toList ++ formatInt N ++ ['\r']) ∨
        (Split '\n' b)[k]? = some ("#$delay:".toList ++ formatInt N ++ ['\r'])) →
      (∀ j l, j < k → (Split '\n' b)[j]? = some l → isDirective l = true →
        ∃ c, NewControlCommand (l.drop 2) = .ok c) →
      NewScript name b = .error ⟨.ErrBadArg, k⟩) ∧
    (∀ name l : Str, isLiteral l = true → '\n' ∉ l →
      NewScript name (l ++ ['\r']) = .ok ⟨name, [.Shell (l ++ ['\r'])], 25000000⟩) ∧
    (∀ name : Str,
      NewScript name ['\r'] = .ok ⟨name, [.Shell ['\r']], 25000000⟩ ∧
        NewScript name "a\r\n\r\nb\r\n".toList =
          .ok ⟨name, [.Shell "a\r\n\r\nb\r".toList], 25000000⟩) := by
  refine ⟨NewControlCommand_carriage_return, ?_, ?_, fun name => ⟨rfl, rfl⟩⟩
  · intro name b k N hk hmin
    have hmin1 : ∀ j l, j < k → (Split '\n' b)[j]? = some l → isMalformed l = false :=
      fun j l hj hl => (isMalformed_false_iff l).2 (hmin j l hj hl)
    have e1 : "#$wait:".toList ++ formatInt N ++ ['\r'] =
        '#' :: '$' :: ("wait".toList ++ ':' :: (formatInt N ++ ['\r'])) := by
      simp
    have e2 : "#$delay:".toList ++ formatInt N ++ ['\r'] =
        '#' :: '$' :: ("delay".toList ++ ':' :: (formatInt N ++ ['\r'])) := by
      simp
    rcases hk with hk | hk
    · rw [e1] at hk
      exact NewScript_error_at name b k _ _ hk (isDirective_hash_dollar _)
        (NewControlCommand_carriage_return N).1 hmin1
    · rw [e2] at hk
      exact NewScript_error_at name b k _ _ hk (isDirective_hash_dollar _)
        (NewControlCommand_carriage_return N).2 hmin1
  · intro name l hl hnl
    have hlit := isLiteral_append_cr l hl
    have hno : '\n' ∉ l ++ ['\r'] := by
      simp only [List.mem_append, List.mem_singleton, not_or]
      exact ⟨hnl, by decide⟩
    have := NewScript_literal name (l ++ ['\r']) [l ++ ['\r']] (by simp)
      (by intro x hx; simp at hx; subst hx; exact hlit)
      (by
        rw [Split_of_not_mem _ _ hno]
        exact filter_nonblank_of_literal _
          (by intro x hx; simp at hx; subst hx; exact hlit))
    simpa [joinLines] using this

/-- C17, witness: a CRLF-terminated script whose second line is `#$wait:5`. -/
theorem carriage_return_kept_witness :
    NewScript "demo".toList "ls\r\n#$wait:5\r\n".toList = .error ⟨.ErrBadArg, 1⟩ :=
  carriage_return_kept.2.1 "demo".toList "ls\r\n#$wait:5\r\n".toList 1 5
    (Or.inl (by decide))
    (by
      intro j l hj hl hd
      have hj0 : j = 0 := by omega
      subst hj0
      have h0 : (Split '\n' "ls\r\n#$wait:5\r\n".toList)[0]? = some "ls\r".toList := by
        decide
      rw [h0] at hl
      cases hl
      exact absurd hd (by decide))

/-! ## Shape of a parsed script -/

theorem Split_no_sep (sep : Char) (s : Str) : ∀ l ∈ Split sep s, sep ∉ l := by
  induction s with
  | nil => simp [Split]
  | cons c cs ih =>
    by_cases h : c = sep
    · intro l hl
      simp only [Split, h, if_true, List.mem_cons] at hl
      rcases hl with rfl | hl
      · simp
      · exact ih l hl
    · cases hs : Split sep cs with
      | nil => exact absurd hs (Split_ne_nil sep cs)
      | cons piece pieces =>
        rw [hs] at ih
        intro l hl
        simp only [Split, h, if_false, hs, List.mem_cons] at hl
        rcases hl with rfl | hl
        · have hp := ih piece (by simp)
          simp only [List.mem_cons, not_or]
          exact ⟨fun e => h e.symm, hp⟩
        · exact ih l (by simp [hl])

theorem segments_shaped (ls : List Str) (h : ∀ l ∈ ls, '\n' ∉ l) :
    segmentsShaped (segments ls) := by
  induction ls with
  | nil => simp [segments, segmentsShaped]
  | cons l rest ih =>
    have ih2 := ih (fun x hx => h x (by simp [hx]))
    rcases line_cases l with h1 | h1 | h1
    · subst h1
      rw [segments_blank]
      exact ih2
    · rw [segments_directive _ _ h1]
      exact ih2
    · have hne := ((isLiteral_iff l).1 h1).1
      have hnl : '\n' ∉ l := h l (by simp)
      rw [segments_literal _ _ h1]
      cases hs : segments rest with
      | nil => simp [segmentsShaped, hne, hnl]
      | cons seg more =>
        rw [hs] at ih2
        cases seg with
        | text ls2 =>
          obtain ⟨_, i2, i3, i4⟩ := ih2
          refine ⟨by simp, ?_, i3, i4⟩
          intro x hx
          rcases List.mem_cons.1 hx with rfl | hx
          · exact ⟨hne, hnl⟩
          · exact i2 x hx
        | directive d =>
          refine ⟨by simp, ?_, ?_, ih2⟩
          · intro x hx
            simp only [List.mem_singleton] at hx
            subst hx
            exact ⟨hne, hnl⟩
          · intro ls2 more2 e
            cases e

theorem mem_of_getLast?_eq {α : Type} (l : List α) (x : α) (h : l.getLast? = some x) :
    x ∈ l := by
  induction l with
  | nil => simp at h
  | cons a rest ih =>
    cases rest with
    | nil =>
      simp only [List.getLast?_singleton, Option.some.injEq] at h
      simp [h]
    | cons b rest2 =>
      rw [List.getLast?_cons_cons] at h
      exact List.mem_cons_of_mem _ (ih h)

theorem joinLines_eq_append_last (ls : List Str) (hne : ls ≠ []) :
    ∃ front last, joinLines ls = front ++ last ∧ last ∈ ls := by
  induction ls with
  | nil => exact absurd rfl hne
  | cons l rest ih =>
    cases rest with
    | nil => exact ⟨[], l, by simp [joinLines], by simp⟩
    | cons l2 rest2 =>
      obtain ⟨front, last, e, hm⟩ := ih (by simp)
      refine ⟨l ++ '\n' :: front, last, ?_, by simp [hm]⟩
      simp only [joinLines] at e ⊢
      rw [e]
      simp

theorem joinLines_shape (ls : List Str) (hne : ls ≠ [])
    (h : ∀ l ∈ ls, l ≠ [] ∧ '\n' ∉ l) :
    joinLines ls ≠ [] ∧ (joinLines ls).getLast? ≠ some '\n' := by
  obtain ⟨front, last, e, hm⟩ := joinLines_eq_append_last ls hne
  obtain ⟨h1, h2⟩ := h last hm
  rw [e]
  refine ⟨by simp [h1], ?_⟩
  rw [List.getLast?_append]
  cases hg : last.getLast? with
  | none =>
    rw [List.getLast?_eq_none_iff] at hg
    exact absurd hg h1
  | some y =>
    simp only [Option.or_some, ne_eq, Option.some.injEq]
    rintro rfl
    exact h2 (mem_of_getLast?_eq last _ hg)

theorem render_shaped (segs : List Segment) (cs : List Command) (hs : segmentsShaped segs)
    (h : render segs = some cs) : commandsShaped cs := by
  induction segs generalizing cs with
  | nil =>
    simp only [render, Option.some.injEq] at h
    subst h
    trivial
  | cons seg rest ih =>
    cases seg with
    | text ls =>
      obtain ⟨h1, h2, h3, h4⟩ := hs
      cases rest with
      | nil =>
        simp only [render, Option.some.injEq] at h
        subst h
        have e : (unlines ls).dropLast = joinLines ls := by
          rw [unlines_eq_joinLines ls h1, List.dropLast_concat]
        simp only [commandsShaped]
        rw [e]
        exact joinLines_shape ls h1 h2
      | cons seg2 rest2 =>
        cases seg2 with
        | text ls2 => exact absurd rfl (h3 ls2 rest2)
        | directive d =>
          rw [render_text_directive] at h
          cases hr : render (.directive d :: rest2) with
          | none => simp [hr] at h
          | some cs2 =>
            rw [hr] at h
            simp only [Option.map_some', Option.some.injEq] at h
            subst h
            have ih2 := ih cs2 h4 hr
            simp only [render] at hr
            cases hc : NewControlCommand (d.drop 2) with
            | error e => simp [hc] at hr
            | ok c =>
              rw [hc] at hr
              simp only [] at hr
              cases hr2 : render rest2 with
              | none => simp [hr2] at hr
              | some cs3 =>
                rw [hr2] at hr
                simp only [Option.map_some', Option.some.injEq] at hr
                subst hr
                have hu : unlines ls = joinLines ls ++ ['\n'] := unlines_eq_joinLines ls h1
                refine ⟨?_, ?_, NewControlCommand_not_shell _ c hc, ih2⟩
                · rw [hu]; simp
                · rw [hu, List.getLast?_concat]
    | directive d =>
      have hs2 : segmentsShaped rest := hs
      simp only [render] at h
      cases hc : NewControlCommand (d.drop 2) with
      | error e => simp [hc] at h
      | ok c =>
        rw [hc] at h
        simp only [] at h
        cases hr : render rest with
        | none => simp [hr] at h
        | some cs2 =>
          rw [hr] at h
          simp only [Option.map_some', Option.some.injEq] at h
          subst h
          have ih2 := ih cs2 hs2 hr
          obtain ⟨ms, _, hw | hw⟩ := NewControlCommand_ok _ c hc <;> subst hw <;>
            simpa [commandsShaped] using ih2

theorem commandsShaped_tail (c : Command) (rest : List Command)
    (h : commandsShaped (c :: rest)) : commandsShaped rest := by
  cases c with
  | Shell t =>
    cases rest with
    | nil => trivial
    | cons c2 rest2 => exact h.2.2.2
  | Wait d => simpa [commandsShaped] using h
  | Delay d => simpa [commandsShaped] using h

theorem commandsShaped_facts (cs : List Command) (h : commandsShaped cs) :
    (∀ t, Command.Shell t ∈ cs → t ≠ []) ∧
      ∀ i t, cs[i]? = some (.Shell t) →
        (cs[i + 1]? = none ∧ t.getLast? ≠ some '\n') ∨
          (∃ c, cs[i + 1]? = some c ∧ c.isShell = false ∧ t.getLast? = some '\n') := by
  induction cs with
  | nil => simp
  | cons c rest ih =>
    obtain ⟨ih1, ih2⟩ := ih (commandsShaped_tail c rest h)
    have head : ∀ t, c = .Shell t → t ≠ [] ∧
        ((rest = [] ∧ t.getLast? ≠ some '\n') ∨
          (∃ c2 rest2, rest = c2 :: rest2 ∧ c2.isShell = false ∧
            t.getLast? = some '\n')) := by
      intro t ht
      subst ht
      cases rest with
      | nil => exact ⟨h.1, Or.inl ⟨rfl, h.2⟩⟩
      | cons c2 rest2 => exact ⟨h.1, Or.inr ⟨c2, rest2, rfl, h.2.2.1, h.2.1⟩⟩
    constructor
    · intro t ht
      rcases List.mem_cons.1 ht with e | ht
      · exact (head t e.symm).1
      · exact ih1 t ht
    · intro i t hi
      cases i with
      | zero =>
        simp only [List.getElem?_cons_zero, Option.some.injEq] at hi
        rcases (head t hi).2 with ⟨hr, hl⟩ | ⟨c2, rest2, hr, hc2, hl⟩
        · subst hr
          exact Or.inl ⟨by simp, hl⟩
        · subst hr
          exact Or.inr ⟨c2, by simp, hc2, hl⟩
      | succ j =>
        simp only [List.getElem?_cons_succ] at hi ⊢
        exact ih2 j t hi

/-- C18: in every script `NewScript` returns, every `Shell` text is non-empty, no
two `Shell` commands are adjacent, and a `Shell` text ends with a newline if and
only if the command is directly followed by a directive command; an input with no
non-blank line parses to the empty command sequence. -/
theorem parsed_script_shape :
    (∀ (name b : Str) (s : Script), NewScript name b = .ok s →
      (∀ t, Command.Shell t ∈ s.Commands → t ≠ []) ∧
      (∀ i t u, s.Commands[i]? = some (.Shell t) → s.Commands[i + 1]? ≠ some (.Shell u)) ∧
      (∀ i t, s.Commands[i]? = some (.Shell t) →
        (t.getLast? = some '\n' ↔
          ∃ c, s.Commands[i + 1]? = some c ∧ c.isShell = false))) ∧
    (∀ name b : Str, (∀ l ∈ Split '\n' b, l = []) →
      NewScript name b = .ok ⟨name, [], 25000000⟩) := by
  constructor
  · intro name b s hs
    obtain ⟨_, _, hr⟩ := (NewScript_eq_ok_iff name b s).1 hs
    have hshape := render_shaped _ _ (segments_shaped _ (Split_no_sep '\n' b)) hr
    obtain ⟨f1, f2⟩ := commandsShaped_facts _ hshape
    refine ⟨f1, ?_, ?_⟩
    · intro i t u hi hu
      rcases f2 i t hi with ⟨hn, _⟩ | ⟨c, hc, hns, _⟩
      · rw [hn] at hu
        cases hu
      · rw [hc] at hu
        cases hu
        cases hns
    · intro i t hi
      rcases f2 i t hi with ⟨hn, hl⟩ | ⟨c, hc, hns, hl⟩
      · constructor
        · intro h
          exact absurd h hl
        · rintro ⟨c, hc, _⟩
          rw [hn] at hc
          cases hc
      · exact ⟨fun _ => ⟨c, hc, hns⟩, fun _ => hl⟩
  · intro name b h
    rw [NewScript_ok_iff_parseLines]
    refine ⟨rfl, rfl, ?_⟩
    rw [← parseLines_filter]
    have : (Split '\n' b).filter (fun l => decide (l ≠ [])) = [] := by
      rw [List.filter_eq_nil_iff]
      intro l hl
      simp [h l hl]
    rw [this]
    rfl

/-- C18, witness: in the script parsed from `a`, `#$wait:1`, `b` the first command is
a `Shell` whose text ends with a newline, and it is followed by a directive
command. -/
theorem parsed_script_shape_witness :
    ("a\n".toList.getLast? = some '\n' ↔
      ∃ c, ([Command.Shell "a\n".toList, .Wait 1000000, .Shell "b".toList])[0 + 1]? = some c ∧
        c.isShell = false) :=
  (parsed_script_shape.1 "demo".toList "a\n#$wait:1\nb".toList
    ⟨"demo".toList, [.Shell "a\n".toList, .Wait 1000000, .Shell "b".toList], 25000000⟩
    rfl).2.2 0 "a\n".toList rfl

/-! ## Decoding of encoded characters -/

theorem DecodeRune_two (s0 s1 : Nat) (rest : List Nat) (h0 : 0xC2 ≤ s0 ∧ s0 < 0xE0)
    (h1 : 0x80 ≤ s1 ∧ s1 ≤ 0xBF) :
    DecodeRune (s0 :: s1 :: rest) = (s0 % 32 * 64 + s1 % 64, 2) := by
  have hs : runeSize s0 = 2 := by unfold runeSize; split_ifs <;> omega
  have hlo : acceptLo s0 = 0x80 := by unfold acceptLo; split_ifs <;> omega
  have hhi : acceptHi s0 = 0xBF := by unfold acceptHi; split_ifs <;> omega
  simp only [DecodeRune, hs, hlo, hhi, List.getD_cons_zero, List.length_cons]
  rw [if_neg (by omega), if_neg (by omega), if_neg (by omega), if_neg (by omega),
    if_pos (by omega)]

theorem DecodeRune_three (s0 s1 s2 : Nat) (rest : List Nat) (h0 : 0xE0 ≤ s0 ∧ s0 < 0xF0)
    (h1 : acceptLo s0 ≤ s1 ∧ s1 ≤ acceptHi s0) (h2 : 0x80 ≤ s2 ∧ s2 ≤ 0xBF) :
    DecodeRune (s0 :: s1 :: s2 :: rest) =
      (s0 % 16 * 4096 + s1 % 64 * 64 + s2 % 64, 3) := by
  have hs : runeSize s0 = 3 := by unfold runeSize; split_ifs <;> omega
  simp only [DecodeRune, hs, List.getD_cons_zero, List.getD_cons_succ, List.length_cons]
  rw [if_neg (by omega), if_neg (by omega), if_neg (by omega), if_neg (by omega),
    if_neg (by omega), if_neg (by omega), if_pos (by omega)]

theorem DecodeRune_four (s0 s1 s2 s3 : Nat) (rest : List Nat)
    (h0 : 0xF0 ≤ s0 ∧ s0 < 0xF5) (h1 : acceptLo s0 ≤ s1 ∧ s1 ≤ acceptHi s0)
    (h2 : 0x80 ≤ s2 ∧ s2 ≤ 0xBF) (h3 : 0x80 ≤ s3 ∧ s3 ≤ 0xBF) :
    DecodeRune (s0 :: s1 :: s2 :: s3 :: rest) =
      (s0 % 8 * 262144 + s1 % 64 * 4096 + s2 % 64 * 64 + s3 % 64, 4) := by
  have hs : runeSize s0 = 4 := by unfold runeSize; split_ifs <;> omega
  simp only [DecodeRune, hs, List.getD_cons_zero, List.getD_cons_succ, List.length_cons]
  rw [if_neg (by omega), if_neg (by omega), if_neg (by omega), if_neg (by omega),
    if_neg (by omega), if_neg (by omega), if_neg (by omega), if_neg (by omega)]

theorem DecodeRune_EncodeRune (r : Nat)
    (hr : r < 0xD800 ∨ (0xDFFF < r ∧ r < 0x110000)) (rest : List Nat) :
    DecodeRune (EncodeRune r ++ rest) = (r, (EncodeRune r).length) ∧
      0 < (EncodeRune r).length := by
  unfold EncodeRune
  split_ifs with h1 h2 h3 h4
  · refine ⟨?_, by simp⟩
    have hs : runeSize r = 1 := by unfold runeSize; rw [if_pos h1]
    simp [DecodeRune, hs]
  · refine ⟨?_, by simp⟩
    rw [List.cons_append, List.cons_append, List.nil_append,
      DecodeRune_two _ _ _ (by omega) (by omega)]
    simp only [List.length_cons, List.length_nil, Prod.mk.injEq, and_true]
    omega
  · omega
  · refine ⟨?_, by simp⟩
    have hlo : acceptLo (0xE0 + r / 4096) = if r / 4096 = 0 then 0xA0 else 0x80 := by
      unfold acceptLo; split_ifs <;> omega
    have hhi : acceptHi (0xE0 + r / 4096) = if r / 4096 = 13 then 0x9F else 0xBF := by
      unfold acceptHi; split_ifs <;> omega
    have hb1 : acceptLo (0xE0 + r / 4096) ≤ 0x80 + r / 64 % 64 ∧
        0x80 + r / 64 % 64 ≤ acceptHi (0xE0 + r / 4096) := by
      rw [hlo, hhi]
      split_ifs <;> omega
    rw [List.cons_append, List.cons_append, List.cons_append, List.nil_append,
      DecodeRune_three _ _ _ _ (by omega) hb1 (by omega)]
    simp only [List.length_cons, List.length_nil, Prod.mk.injEq, and_true]
    omega
  · refine ⟨?_, by simp⟩
    have hlo : acceptLo (0xF0 + r / 262144) = if r / 262144 = 0 then 0x90 else 0x80 := by
      unfold acceptLo; split_ifs <;> omega
    have hhi : acceptHi (0xF0 + r / 262144) = if r / 262144 = 4 then 0x8F else 0xBF := by
      unfold acceptHi; split_ifs <;> omega
    have hb1 : acceptLo (0xF0 + r / 262144) ≤ 0x80 + r / 4096 % 64 ∧
        0x80 + r / 4096 % 64 ≤ acceptHi (0xF0 + r / 262144) := by
      rw [hlo, hhi]
      split_ifs <;> omega
    rw [List.cons_append, List.cons_append, List.cons_append, List.cons_append,
      List.nil_append, DecodeRune_four _ _ _ _ _ (by omega) hb1 (by omega) (by omega)]
    simp only [List.length_cons, List.length_nil, Prod.mk.injEq, and_true]
    omega

/-! ## Typed text as bytes -/

theorem rangeString_skip (d : Int) (pre rest : List Nat) :
    rangeString d pre.length (pre ++ rest) = rangeString d 0 rest := by
  induction pre with
  | nil => rfl
  | cons b bs ih =>
    rw [List.cons_append, List.length_cons]
    simp only [rangeString]
    exact ih

theorem utf8_cons (c : Char) (cs : List Char) :
    utf8 (c :: cs) = EncodeRune c.toNat ++ utf8 cs := by
  simp [utf8, List.flatMap_cons]

theorem utf8_append (a b : List Char) : utf8 (a ++ b) = utf8 a ++ utf8 b := by
  induction a with
  | nil => rfl
  | cons c cs ih => rw [List.cons_append, utf8_cons, utf8_cons, ih, List.append_assoc]

theorem emitted_append (a b : List Event) : emitted (a ++ b) = emitted a ++ emitted b := by
  simp [emitted]

theorem rangeString_utf8 (d : Int) (cs : List Char) :
    rangeString d 0 (utf8 cs) = typed cs d := by
  induction cs with
  | nil => rfl
  | cons c rest ih =>
    obtain ⟨hdec, hlen⟩ := DecodeRune_EncodeRune c.toNat c.valid (utf8 rest)
    rw [utf8_cons]
    cases he : EncodeRune c.toNat with
    | nil =>
      rw [he] at hlen
      simp at hlen
    | cons b bs =>
      rw [he] at hdec
      rw [List.cons_append]
      simp only [rangeString]
      rw [← List.cons_append, hdec]
      simp only [List.length_cons, Nat.add_sub_cancel, Char.ofNat_toNat]
      rw [rangeString_skip, ih]
      simp [typed, List.flatMap_cons]

theorem emitted_typed (cs : List Char) (d : Int) : emitted (typed cs d) = utf8 cs := by
  induction cs with
  | nil => rfl
  | cons c rest ih =>
    have e : typed (c :: rest) d = [.Print c, .Sleep d] ++ typed rest d := by
      simp [typed, List.flatMap_cons]
    rw [e, emitted_append, ih, utf8_cons]
    simp [emitted]

theorem emitted_stepAll (cmds : List Command) (sc : Script) :
    emitted (stepAll Command.Run sc cmds).2 =
      utf8 ((cmds.filterMap Command.shellText).flatten) := by
  induction cmds generalizing sc with
  | nil => rfl
  | cons c cs ih =>
    simp only [stepAll, emitted_append, ih]
    cases c with
    | Shell t =>
      rw [Shell_Run_events, emitted_typed]
      simp [Command.shellText, utf8_append]
    | Wait d => simp [Command.Run, emitted, Command.shellText]
    | Delay d => simp [Command.Run, emitted, Command.shellText]

/-- C14, as amended: for every text that is valid UTF-8, that is the encoding of a
character sequence `t`, and every typing delay, `Shell.Run` produces for each
character of `t` in order one print of that character immediately followed by
one sleep of the delay; the bytes written are the text; and the output of a whole
script whose texts are valid UTF-8 is the concatenation of the texts of its
`Shell` commands in sequence order. -/
theorem typed_text_trace :
    (∀ (t : List Char) (sc : Script),
      ShellRunBytes (utf8 t) sc =
          t.flatMap (fun ch => [Event.Print ch, Event.Sleep sc.TypingDelay]) ∧
        emitted (ShellRunBytes (utf8 t) sc) = utf8 t ∧
        (Command.Run (.Shell t) sc).2.1 = ShellRunBytes (utf8 t) sc ∧
        printed (Command.Run (.Shell t) sc).2.1 = t) ∧
    (∀ s : Script,
      printed (Script.Run s).2.1 = (s.Commands.filterMap Command.shellText).flatten ∧
        emitted (Script.Run s).2.1 =
          utf8 ((s.Commands.filterMap Command.shellText).flatten)) := by
  constructor
  · intro t sc
    have h1 : ShellRunBytes (utf8 t) sc = typed t sc.TypingDelay :=
      rangeString_utf8 sc.TypingDelay t
    have h2 := Shell_Run_events t sc
    refine ⟨h1, ?_, ?_, ?_⟩
    · rw [h1, emitted_typed]
    · rw [h1, h2]
    · rw [h2, printed_typed]
  · intro s
    rw [Script_Run_eq]
    exact ⟨printed_stepAll s.Commands s, emitted_stepAll s.Commands s⟩

/-- C14, counterexample: the text with bytes `a`, `0xFF`, `b` is not valid UTF-8;
`Shell.Run` prints U+FFFD in place of the byte `0xFF`, so the bytes written are
not the text. -/
theorem invalid_byte_replaced :
    ShellRunBytes [0x61, 0xFF, 0x62] ⟨"demo".toList, [], 25000000⟩ =
        [.Print 'a', .Sleep 25000000, .Print (Char.ofNat 0xFFFD), .Sleep 25000000,
          .Print 'b', .Sleep 25000000] ∧
      emitted (ShellRunBytes [0x61, 0xFF, 0x62] ⟨"demo".toList, [], 25000000⟩) =
        [0x61, 0xEF, 0xBF, 0xBD, 0x62] ∧
      emitted (ShellRunBytes [0x61, 0xFF, 0x62] ⟨"demo".toList, [], 25000000⟩) ≠
        [0x61, 0xFF, 0x62] := by
  decide

/-! ## Fail-fast execution over arbitrary commands -/

theorem rangeLoop_at {σ κ : Type} (run : κ → σ → σ × List Event × Option Err)
    (elem : σ → Nat → κ) (st : σ) (r i : Nat) :
    rangeLoop run elem (r + 1) i (storeBefore run elem st i) (eventsBefore run elem st i) =
      match errorAt run elem st i with
      | some err =>
        (storeBefore run elem st (i + 1), eventsBefore run elem st (i + 1), some ⟨err, i⟩)
      | none =>
        rangeLoop run elem r (i + 1) (storeBefore run elem st (i + 1))
          (eventsBefore run elem st (i + 1)) := by
  simp only [rangeLoop, errorAt, commandAt, storeBefore, eventsBefore]
  rcases run (elem (storeBefore run elem st i) i) (storeBefore run elem st i) with
    ⟨st1, ev, e⟩
  cases e <;> rfl

theorem rangeLoop_ok {σ κ : Type} (run : κ → σ → σ × List Event × Option Err)
    (elem : σ → Nat → κ) (st : σ) (r i : Nat)
    (h : ∀ j, i ≤ j → j < i + r → errorAt run elem st j = none) :
    rangeLoop run elem r i (storeBefore run elem st i) (eventsBefore run elem st i) =
      (storeBefore run elem st (i + r), eventsBefore run elem st (i + r), none) := by
  induction r generalizing i with
  | zero => rfl
  | succ r ih =>
    rw [rangeLoop_at, h i (Nat.le_refl i) (by omega)]
    simp only []
    rw [ih (i + 1) (fun j h1 h2 => h j (by omega) (by omega))]
    have e : i + 1 + r = i + (r + 1) := by omega
    rw [e]

theorem rangeLoop_fail {σ κ : Type} (run : κ → σ → σ × List Event × Option Err)
    (elem : σ → Nat → κ) (st : σ) (k : Nat) (err : Err) (r i : Nat)
    (hik : i ≤ k) (hk : k < i + r)
    (hpre : ∀ j, i ≤ j → j < k → errorAt run elem st j = none)
    (hfail : errorAt run elem st k = some err) :
    rangeLoop run elem r i (storeBefore run elem st i) (eventsBefore run elem st i) =
      (storeBefore run elem st (k + 1), eventsBefore run elem st (k + 1),
        some ⟨err, k⟩) := by
  induction r generalizing i with
  | zero => omega
  | succ r ih =>
    rw [rangeLoop_at]
    by_cases hi : i = k
    · subst hi
      rw [hfail]
    · rw [hpre i (Nat.le_refl i) (by omega)]
      exact ih (i + 1) (by omega) (by omega) (fun j h1 h2 => hpre j (by omega) h2)

theorem elem_storeBefore_fixed {σ κ : Type} (run : κ → σ → σ × List Event × Option Err)
    (elem : σ → Nat → κ) (st : σ)
    (hfix : ∀ (c : κ) (st1 : σ) (j : Nat), elem (run c st1).1 j = elem st1 j)
    (j k : Nat) : elem (storeBefore run elem st j) k = elem st k := by
  induction j with
  | zero => rfl
  | succ j ih =>
    simp only [storeBefore]
    rw [hfix, ih]

theorem Command_Run_Commands (c : Command) (sc : Script) :
    (Command.Run c sc).1.Commands = sc.Commands := by
  cases c <;> rfl

theorem rangeLoop_Command (r i : Nat) (sc : Script) (trace : List Event)
    (h : i + r = sc.Commands.length) :
    rangeLoop Command.Run scriptElem r i sc trace =
      runLoop Command.Run i sc trace (sc.Commands.drop i) := by
  induction r generalizing i sc trace with
  | zero =>
    have e : sc.Commands.drop i = [] := List.drop_eq_nil_of_le (by omega)
    rw [e]
    rfl
  | succ r ih =>
    have hi : i < sc.Commands.length := by omega
    have hel : scriptElem sc i = sc.Commands[i] := by
      unfold scriptElem
      rw [List.getD_eq_getElem?_getD, List.getElem?_eq_getElem hi]
      rfl
    rw [List.drop_eq_getElem_cons hi]
    simp only [rangeLoop, runLoop, hel]
    have hc := Command_Run_Commands sc.Commands[i] sc
    have hn := Command_Run_ok sc.Commands[i] sc
    rcases hr : Command.Run sc.Commands[i] sc with ⟨sc1, ev, e⟩
    rw [hr] at hc hn
    simp only [] at hc hn
    subst hn
    simp only []
    rw [ih (i + 1) sc1 (trace ++ ev) (by rw [hc]; omega), hc]

/-- C13, as amended: `Script.Run` fixes the number `n` of commands at entry and at
step `i` runs the command it then finds at index `i` of the sequence, for any
implementation of the `Command` interface and any store the commands act on.  If
the command found at index `i < n` is the first that fails, the loop has run the
commands found at indices `0..i` in order and nothing after them, returns the
failure with the 0-based index `i`, and leaves the effects of the earlier commands
in place; if none of the `n` commands found fails, it runs them all in order and
returns success.  When no command changes an element of the sequence, the command
found at each index is the one the sequence held at entry.  For `Shell`, `Wait`
and `Delay` this loop is `Script.Run`. -/
theorem run_fail_fast :
    (∀ (σ κ : Type) (run : κ → σ → σ × List Event × Option Err) (elem : σ → Nat → κ)
        (n : Nat) (st : σ),
      (∀ (i : Nat) (err : Err), i < n →
        (∀ j, j < i → errorAt run elem st j = none) →
        errorAt run elem st i = some err →
        rangeLoop run elem n 0 st [] =
          (storeBefore run elem st (i + 1), eventsBefore run elem st (i + 1),
            some ⟨err, i⟩)) ∧
      ((∀ j, j < n → errorAt run elem st j = none) →
        rangeLoop run elem n 0 st [] =
          (storeBefore run elem st n, eventsBefore run elem st n, none)) ∧
      ((∀ (c : κ) (st1 : σ) (j : Nat), elem (run c st1).1 j = elem st1 j) →
        ∀ j, commandAt run elem st j = elem st j)) ∧
    (∀ s : Script,
      Script.Run s = rangeLoop Command.Run scriptElem s.Commands.length 0 s []) := by
  constructor
  · intro σ κ run elem n st
    refine ⟨?_, ?_, ?_⟩
    · intro i err hi hpre hfail
      exact rangeLoop_fail run elem st i err n 0 (Nat.zero_le i) (by omega)
        (fun j _ h2 => hpre j h2) hfail
    · intro h
      have := rangeLoop_ok run elem st n 0 (fun j _ h2 => h j (by omega))
      simpa using this
    · intro hfix j
      exact elem_storeBefore_fixed run elem st hfix j j
  · intro s
    have := rangeLoop_Command s.Commands.length 0 s [] (by omega)
    rw [this]
    rfl

/-- C13, witness: of three commands the second fails; the first has run, the third
has not. -/
theorem run_fail_fast_witness :
    rangeLoop ExampleCommand.Run exampleElem 3 0 [.succeed, .fail, .succeed] [] =
      ([.succeed, .fail, .succeed], [.Sleep 1, .Print '!'], some ⟨.ErrBadArg, 1⟩) :=
  (run_fail_fast.1 (List ExampleCommand) ExampleCommand ExampleCommand.Run exampleElem 3
    [.succeed, .fail, .succeed]).1 1 .ErrBadArg (by decide)
    (by
      intro j hj
      have hj0 : j = 0 := by omega
      subst hj0
      rfl)
    rfl

/-- C13, counterexample: in the sequence `overwrite 2 fail`, `succeed`, `succeed` the
first command succeeds and `succeed` succeeds in the store it leaves, so no
command of the sequence fails; yet the loop returns a failure at index 2, having
run there the command `fail` that the first command stored in the sequence. -/
theorem run_executes_overwritten_command :
    (ExampleCommand.Run (.overwrite 2 .fail) [.overwrite 2 .fail, .succeed, .succeed]).2.2 =
        none ∧
      (ExampleCommand.Run .succeed [.overwrite 2 .fail, .succeed, .fail]).2.2 = none ∧
      rangeLoop ExampleCommand.Run exampleElem 3 0
          [.overwrite 2 .fail, .succeed, .succeed] [] =
        ([.overwrite 2 .fail, .succeed, .fail], [.Sleep 1, .Print '!'],
          some ⟨.ErrBadArg, 2⟩) := by
  decide

end Asciiscript
